import Mathlib

/-!
Verification development for the Boolean function minimization engine of
the DLD repository: the cube algebra, the Quine-McCluskey exact engine
(src/ALGO/combinational_circuits/quine_mccluskey.py) and the Espresso-style
heuristic engine (src/ALGO/combinational_circuits/espresso_algorithm.py)
are shallowly embedded below, and the spec's claims about them are settled.
-/

set_option maxHeartbeats 1000000
set_option maxRecDepth 4000
set_option linter.unusedVariables false

namespace DLD

/-- A cube (product term) is represented, exactly as in the Python source, by
a string over the characters '0' (variable complemented), '1' (variable
uncomplemented) and '-' (don't care); the string is modelled as a `List Char`. -/
abbrev Rep := List Char

/-- A well-formed cube representation uses only the three legal characters. -/
def wfRep (r : Rep) : Prop := ∀ c ∈ r, c = '0' ∨ c = '1' ∨ c = '-'

instance (r : Rep) : Decidable (wfRep r) := List.decidableBAll _ r

/-- The set of minterms covered by a cube representation, as a strictly
structured enumeration: the head character is the most significant bit, as in
the Python binary strings produced by format(m, '0nb').  Characters other
than '0' and '1' behave as don't cares.  (Spec 4.1, toMinterms.) -/
def semL : Rep → List Nat
  | [] => [0]
  | c :: r =>
    let s := semL r
    if c = '0' then s
    else if c = '1' then s.map (· + 2 ^ r.length)
    else s ++ s.map (· + 2 ^ r.length)

/-- Python's format(m, '0nb') for 0 ≤ m < 2^n: the n-bit binary
representation, most significant bit first.  (All uses in the theorems below
are within this domain; Python would emit extra characters for m ≥ 2^n.) -/
def toBin : Nat → Nat → Rep
  | 0, _ => []
  | n + 1, m => (if 2 ^ n ≤ m then '1' else '0') :: toBin n (m % 2 ^ n)

/-- Cube.contains from espresso_algorithm.py.  The Python loop runs over
zip(a, b), so the scan stops at the shorter representation. -/
def containsB : Rep → Rep → Bool
  | c1 :: r1, c2 :: r2 =>
    if c1 ≠ '-' ∧ c2 ≠ '-' ∧ c1 ≠ c2 then false
    else if c1 = '-' ∧ c2 ≠ '-' then false
    else containsB r1 r2
  | _, _ => true

/-- Cube.distance from espresso_algorithm.py: number of positions where both
literals are defined and differ (zip semantics). -/
def distanceB : Rep → Rep → Nat
  | c1 :: r1, c2 :: r2 =>
    (if c1 ≠ '-' ∧ c2 ≠ '-' ∧ c1 ≠ c2 then 1 else 0) + distanceB r1 r2
  | _, _ => 0

/-- The positionwise merge rule of Cube.merge from espresso_algorithm.py. -/
def mergeChar (c1 c2 : Char) : Char :=
  if c1 = c2 then c1
  else if c1 ≠ '-' ∧ c2 ≠ '-' then '-'
  else if c1 = '-' then c2
  else c1

/-- Cube.merge from espresso_algorithm.py: defined only when the distance is
exactly 1 (can_merge), merging positionwise. -/
def mergeB (a b : Rep) : Option Rep :=
  if distanceB a b = 1 then some (List.zipWith mergeChar a b) else none

/-- Cube.literal_count from espresso_algorithm.py. -/
def literalCountR (r : Rep) : Nat := r.countP (fun c => c ≠ '-')

/-- Positionwise intersection of equal-length representations
(Cube.intersect's loop body). -/
def intersectChars : Rep → Rep → Option Rep
  | [], [] => some []
  | c1 :: r1, c2 :: r2 =>
    let hd := if c1 = '-' then some c2
              else if c2 = '-' then some c1
              else if c1 = c2 then some c1 else none
    match hd, intersectChars r1 r2 with
    | some ch, some rest => some (ch :: rest)
    | _, _ => none
  | _, _ => none

/-- Cube.intersect from espresso_algorithm.py: None when the lengths differ
or some position has conflicting defined literals. -/
def intersectB (a b : Rep) : Option Rep :=
  if a.length = b.length then intersectChars a b else none

/-- Number of don't-care characters in a representation. -/
def dashCount (r : Rep) : Nat := r.count '-'

/-- Number of '1' characters (used to bucket terms in the QM tabulation). -/
def onesCount (r : Rep) : Nat := r.count '1'

/-- Whether two representations have their don't-care characters at exactly
the same positions. -/
def alignedB : Rep → Rep → Bool
  | c1 :: r1, c2 :: r2 => (decide (c1 = '-') == decide (c2 = '-')) && alignedB r1 r2
  | [], [] => true
  | _, _ => false

/-- The positionwise rule of Term.combine_with from quine_mccluskey.py: keep
equal characters and write '-' where the two strings differ. -/
def combineRepR (a b : Rep) : Rep :=
  List.zipWith (fun c1 c2 => if c1 = c2 then c1 else '-') a b

/-! ### Espresso engine (espresso_algorithm.py) -/

/-- Cover.add_cube: append a cube unless an equal one is already present. -/
def addCube (cover : List Rep) (c : Rep) : List Rep :=
  if c ∈ cover then cover else cover ++ [c]

/-- The generated variable names A0, A1, ... used by both engines. -/
def engineVariables (n : Nat) : List String :=
  (List.range n).map (fun i => "A" ++ Nat.repr i)

/-- Cube.to_expression / Term.to_expression: '1' contributes the variable
name, '0' the name followed by the complement mark, '-' is skipped; a cube
with no literals renders as "1". -/
def toExpressionR (vars : List String) (r : Rep) : String :=
  let lits := (List.range r.length).foldl (fun acc i =>
    let c := r.getD i '-'
    if c = '1' then acc ++ [vars.getD i ""]
    else if c = '0' then acc ++ [vars.getD i "" ++ "\x27"]
    else acc) []
  if lits = [] then "1" else String.join lits

/-- The state of EspressoAlgorithm: the number of variables plus the ON, DC
and OFF covers built by set_function. -/
structure EState where
  numVariables : Nat
  onSet : List Rep
  dcSet : List Rep
  offSet : List Rep

/-- EspressoAlgorithm.set_function together with _generate_off_set.  Unlike
the QM engine, no input validation whatsoever is performed here: the
function is total and always produces a state. -/
def espressoSetFunction (n : Nat) (mts dcs : List Nat) : EState :=
  ⟨n,
   mts.foldl (fun acc m => addCube acc (toBin n m)) [],
   dcs.foldl (fun acc m => addCube acc (toBin n m)) [],
   ((List.range (2 ^ n)).filter (fun i => decide (i ∉ mts ∧ i ∉ dcs))).foldl
     (fun acc i => addCube acc (toBin n i)) []⟩

/-- EspressoAlgorithm._is_valid_expansion: an expansion is rejected iff the
cube has a dash-free nonconflicting intersection with some off-set cube.
(A Cube object is always truthy in Python, so the source's
`if intersection` test never filters anything.) -/
def isValidExpansion (off : List Rep) (cube : Rep) : Bool :=
  !(off.any (fun o =>
    match intersectB cube o with
    | some inter => !(inter.contains '-')
    | none => false))

/-- EspressoAlgorithm._expand_cube: relax each position in order, keeping a
relaxation iff it stays off-set-free.  (The source's cover parameter is
unused by its body.) -/
def expandCube (n : Nat) (off : List Rep) (cube : Rep) : Rep :=
  (List.range n).foldl (fun cur i =>
    if cur.getD i '-' ≠ '-' then
      let test := cur.set i '-'
      if isValidExpansion off test then test else cur
    else cur) cube

/-- EspressoAlgorithm._expand. -/
def expandCover (n : Nat) (off : List Rep) (cover : List Rep) : List Rep :=
  cover.foldl (fun acc cube => addCube acc (expandCube n off cube)) []

/-- EspressoAlgorithm._is_cube_redundant: only single-cube containment by
another cube is checked. -/
def isCubeRedundant (cube : Rep) (others : List Rep) : Bool :=
  others.any (fun o => containsB o cube)

/-- EspressoAlgorithm._irredundant. -/
def irredundantCover (cover : List Rep) : List Rep :=
  cover.foldl (fun acc cube =>
    if isCubeRedundant cube (cover.filter (fun c => decide (c ≠ cube))) then acc
    else addCube acc cube) []

/-- EspressoAlgorithm._maintains_coverage: the source returns True
unconditionally ("this is a simplified check"). -/
def maintainsCoverage (reducedCube : Rep) (otherCubes : List Rep) : Bool := true

/-- EspressoAlgorithm._reduce_cube: since _maintains_coverage accepts
everything, every defined position among the first n is relaxed in turn. -/
def reduceCube (n : Nat) (cover : List Rep) (cube : Rep) : Rep :=
  (List.range n).foldl (fun cur i =>
    if cur.getD i '-' ≠ '-' then
      let test := cur.set i '-'
      if maintainsCoverage test (cover.filter (fun c => decide (c ≠ cube))) then test
      else cur
    else cur) cube

/-- EspressoAlgorithm._reduce. -/
def reduceCover (n : Nat) (cover : List Rep) : List Rep :=
  cover.foldl (fun acc cube => addCube acc (reduceCube n cover cube)) []

/-- Cover.literal_count. -/
def coverCost (cover : List Rep) : Nat := (cover.map literalCountR).sum

/-- The EXPAND → IRREDUNDANT → REDUCE loop of EspressoAlgorithm.minimize;
the fuel is max_iterations minus the iteration counter, so the recursion
mirrors `while iteration < max_iterations` exactly. -/
def espressoLoop (st : EState) : Nat → Nat → List Rep → List Rep × Nat
  | 0, iteration, current => (current, iteration)
  | fuel + 1, iteration, current =>
    let oldCost := coverCost current
    let expanded := expandCover st.numVariables st.offSet current
    let irr := irredundantCover expanded
    let reduced := reduceCover st.numVariables irr
    if oldCost ≤ coverCost reduced then (current, iteration)
    else espressoLoop st fuel (iteration + 1) reduced

/-- EspressoAlgorithm._cover_to_expression. -/
def coverToExpression (vars : List String) (cover : List Rep) : String :=
  if cover = [] then "0"
  else
    let terms := cover.foldl (fun acc cube =>
      let t := toExpressionR vars cube
      if t ≠ "" ∧ t ≠ "0" then acc ++ [t] else acc) []
    if terms = [] then "0"
    else if terms.length = 1 then terms.getD 0 ""
    else String.intercalate " + " terms

/-- The result dictionary of EspressoAlgorithm.minimize.  (The empty-input
branch of the source omits the cube_count key; it is modelled as 0 there.) -/
structure EResult where
  minimizedCover : List Rep
  simplifiedExpression : String
  iterations : Nat
  cost : Nat
  cubeCount : Nat
deriving DecidableEq, Repr

/-- EspressoAlgorithm set_function followed by minimize. -/
def espressoMinimize (n : Nat) (mts dcs : List Nat) (maxIterations : Nat) : EResult :=
  let st := espressoSetFunction n mts dcs
  if st.onSet = [] then ⟨[], "0", 0, 0, 0⟩
  else
    let res := espressoLoop st maxIterations 0 st.onSet
    ⟨res.1, coverToExpression (engineVariables n) res.1, res.2, coverCost res.1,
     res.1.length⟩

/-! ### Quine-McCluskey engine (quine_mccluskey.py) -/

/-- A Term of quine_mccluskey.py: the tracked covered-minterm set plus the
binary representation.  The source's mutable `used` flag is computed per
generation by `usedB` below; Python Term equality compares only binary_rep. -/
structure Term where
  minterms : Finset Nat
  rep : Rep
deriving DecidableEq

/-- Differing positions never pair a dash with a defined character
(the early False of Term.can_combine_with). -/
def noDashDiff : Rep → Rep → Bool
  | c1 :: r1, c2 :: r2 => (c1 == c2 || (c1 != '-' && c2 != '-')) && noDashDiff r1 r2
  | _, _ => true

/-- Number of differing positions. -/
def diffCount : Rep → Rep → Nat
  | c1 :: r1, c2 :: r2 => (if c1 = c2 then 0 else 1) + diffCount r1 r2
  | _, _ => 0

/-- Term.can_combine_with: equal lengths, no dash paired with a defined
character at a differing position, and exactly one difference. -/
def canCombineWith (a b : Term) : Bool :=
  a.rep.length == b.rep.length && noDashDiff a.rep b.rep && diffCount a.rep b.rep == 1

/-- Term.combine_with on combinable terms (all callers guard it with
can_combine_with): tracked minterm sets are unioned and the representations
merged positionwise. -/
def combineWith (a b : Term) : Term :=
  ⟨a.minterms ∪ b.minterms, combineRepR a.rep b.rep⟩

/-- Append a combined term unless one with the same representation is
already present (Python `not in next_terms`, with rep-based Term equality). -/
def addTermNew (acc : List Term) (t : Term) : List Term :=
  if acc.any (fun s => s.rep == t.rep) then acc else acc ++ [t]

/-- One generation of _find_prime_implicants: for each pair of adjacent
one-count buckets, try all cross-bucket combinations in order, deduplicating
the next generation by representation. -/
def combineStep (current : List Term) : List Term :=
  let maxOnes := current.foldl (fun a t => max a (onesCount t.rep)) 0
  (List.range (maxOnes + 1)).foldl (fun acc k =>
    (current.filter (fun t => onesCount t.rep == k)).foldl (fun acc t1 =>
      (current.filter (fun t => onesCount t.rep == k + 1)).foldl (fun acc t2 =>
        if canCombineWith t1 t2 then addTermNew acc (combineWith t1 t2) else acc)
        acc) acc) []

/-- A term is marked used during a generation iff it can combine with some
term of the generation: combinable terms always sit in adjacent one-count
buckets (canCombineWith_ones below), and can_combine_with is symmetric, so
the source's bucket loop tries exactly these pairs. -/
def usedB (current : List Term) (t : Term) : Bool :=
  current.any (fun t2 => canCombineWith t t2)

/-- The while loop of _find_prime_implicants: unused terms of each
generation are emitted as prime implicants, the combined terms form the
next generation.  The fuel is only a termination device: each generation's
terms carry one more dash than the previous one's, so n + 2 steps always
reach the empty generation on n-bit input. -/
def qmLoop : Nat → List Term → List Term → List Term
  | 0, pis, _ => pis
  | fuel + 1, pis, current =>
    if current = [] then pis
    else qmLoop fuel (pis ++ current.filter (fun t => !usedB current t))
      (combineStep current)

/-- Insert a value into a sorted duplicate-free list of naturals. -/
def insertSorted (m : Nat) : List Nat → List Nat
  | [] => [m]
  | x :: xs =>
    if m < x then m :: x :: xs
    else if m = x then x :: xs
    else x :: insertSorted m xs

/-- The ascending duplicate-free enumeration of a Python set of small ints
(CPython iterates such sets in ascending order). -/
def sortDedup (l : List Nat) : List Nat := l.foldr insertSorted []

/-- Generation 0 of the tabulation: one Term per element of
minterms ∪ dontCares, iterated in ascending order. -/
def initialTerms (n : Nat) (onL dc : List Nat) : List Term :=
  (sortDedup (onL ++ dc)).map (fun m => ⟨{m}, toBin n m⟩)

/-- QuineMcCluskey._find_prime_implicants. -/
def findPrimeImplicants (n : Nat) (onL dc : List Nat) : List Term :=
  qmLoop (n + 2) [] (initialTerms n onL dc)

/-- The state set up by QuineMcCluskey.set_function: the on-set and
don't-care set, stored sorted and deduplicated (Python int sets). -/
structure QMState where
  numVariables : Nat
  minterms : List Nat
  dontCares : List Nat
deriving DecidableEq, Repr

/-- QuineMcCluskey.set_function: stores the sets, then raises ValueError if
some minterm or don't-care exceeds 2^n - 1.  (The source also compares
against 0, which cannot fail for naturals; overlapping on/don't-care sets
are not checked at all.) -/
def qmSetFunction (n : Nat) (mts dcs : List Nat) : Except String QMState :=
  let st : QMState := ⟨n, sortDedup mts, sortDedup dcs⟩
  if (st.minterms ++ st.dontCares).any (fun m => decide (2 ^ n - 1 < m)) then
    Except.error "Minterm out of range"
  else Except.ok st

/-- QuineMcCluskey._create_coverage_table: PIs paired with the on-set
minterms they cover, in PI order, dropping PIs that cover none. -/
def coverageTable (onF : Finset Nat) (pis : List Term) : List (Term × Finset Nat) :=
  pis.foldl (fun acc pi =>
    let covered := pi.minterms ∩ onF
    if covered = ∅ then acc else acc ++ [(pi, covered)]) []

/-- One minterm's step of _find_essential_prime_implicants. -/
def essentialStep (coverage : List (Term × Finset Nat))
    (acc : List Term × Finset Nat) (m : Nat) : List Term × Finset Nat :=
  match coverage.filter (fun pc => decide (m ∈ pc.2)) with
  | [pc] =>
    if acc.1.any (fun t => t.rep == pc.1.rep) then acc
    else (acc.1 ++ [pc.1], acc.2 ∪ pc.2)
  | _ => acc

/-- QuineMcCluskey._find_essential_prime_implicants (minterms iterated in
ascending order). -/
def findEssential (coverage : List (Term × Finset Nat)) (minterms : List Nat) :
    List Term × Finset Nat :=
  minterms.foldl (essentialStep coverage) ([], ∅)

/-- One candidate update of the greedy selection loop of
_solve_covering_problem: adopt the candidate iff its remaining-coverage size
strictly exceeds the best size seen so far (initially 0). -/
def bestStep (remaining : Finset Nat) (best : Option ((Term × Finset Nat) × Nat))
    (pc : Term × Finset Nat) : Option ((Term × Finset Nat) × Nat) :=
  let sz := (pc.2 ∩ remaining).card
  match best with
  | none => if 0 < sz then some (pc, sz) else none
  | some (_, bsz) => if bsz < sz then some (pc, sz) else best

/-- The inner selection of _solve_covering_problem: the first PI (in table
order) whose remaining-coverage size strictly exceeds every earlier size;
None when every size is zero. -/
def bestOf (relevant : List (Term × Finset Nat)) (remaining : Finset Nat) :
    Option (Term × Finset Nat) :=
  (relevant.foldl (bestStep remaining) none).map Prod.fst

/-- The while loop of _solve_covering_problem.  The fuel only bounds the
repetition: every successful selection removes at least one remaining
minterm, so |uncovered| + 1 steps suffice. -/
def greedyLoop : Nat → List (Term × Finset Nat) → Finset Nat → List Term → List Term
  | 0, _, _, sel => sel
  | fuel + 1, relevant, remaining, sel =>
    if remaining = ∅ ∨ relevant = [] then sel
    else
      match bestOf relevant remaining with
      | none => sel
      | some (bpi, bcov) =>
        let newly := bcov ∩ remaining
        let remaining2 := remaining \ newly
        let relevant2 := (relevant.map (fun pc => (pc.1, pc.2 \ newly))).filter
          (fun pc => decide (pc.2 ≠ ∅))
        greedyLoop fuel relevant2 remaining2 (sel ++ [bpi])

/-- QuineMcCluskey._solve_covering_problem: greedy covering.  When no
remaining PI covers a remaining minterm the loop just stops (the source
`break`s) and the partial selection is returned as a normal value — the
function has no error path at all. -/
def solveCoveringProblem (coverage : List (Term × Finset Nat))
    (uncovered : Finset Nat) : List Term :=
  if uncovered = ∅ then []
  else
    let relevant := coverage.foldl (fun acc pc =>
      let rc := pc.2 ∩ uncovered
      if rc = ∅ then acc else acc ++ [(pc.1, rc)]) []
    greedyLoop (uncovered.card + 1) relevant uncovered []

/-- The result of QuineMcCluskey.minimize.  The prime implicant lists are
carried as Terms; the source returns their rendered expression strings
(plus a coverage-table rendering, omitted here). -/
structure QMResult where
  simplifiedExpression : String
  primeImplicants : List Term
  essentialPIs : List Term
  selected : List Term
  cost : Nat
deriving DecidableEq

/-- QuineMcCluskey.minimize on a state produced by set_function. -/
def qmMinimize (st : QMState) : QMResult :=
  if st.minterms = [] then ⟨"0", [], [], [], 0⟩
  else
    let pis := findPrimeImplicants st.numVariables st.minterms st.dontCares
    let onF := st.minterms.toFinset
    let coverage := coverageTable onF pis
    let ess := findEssential coverage st.minterms
    let uncovered := onF \ ess.2
    let additional := solveCoveringProblem coverage uncovered
    let selected := ess.1 ++ additional
    let vars := engineVariables st.numVariables
    if selected.any (fun pi => toExpressionR vars pi.rep == "1") then
      ⟨"1", pis, ess.1, selected, 1⟩
    else
      let terms := selected.map (fun pi => toExpressionR vars pi.rep)
      ⟨if terms = [] then "0" else String.intercalate " + " terms,
       pis, ess.1, selected, selected.length⟩


/-- The per-term invariant of the QM tabulation used by the theorems below:
an n-character well-formed representation whose tracked minterm set equals
its semantic minterm set and stays inside onSet ∪ dontCares. -/
def termInv (n : Nat) (onDc : Finset Nat) (t : Term) : Prop :=
  t.rep.length = n ∧ wfRep t.rep ∧ (∀ m, m ∈ t.minterms ↔ m ∈ semL t.rep) ∧
    ∀ m ∈ t.minterms, m ∈ onDc

theorem semL_ne_nil (r : Rep) : semL r ≠ [] := by
  induction r with
  | nil => simp [semL]
  | cons c r ih =>
    simp only [semL]
    split
    · exact ih
    · split
      · simpa using ih
      · simp [ih]

theorem semL_lt (r : Rep) : ∀ m ∈ semL r, m < 2 ^ r.length := by
  induction r with
  | nil => simp [semL]
  | cons c r ih =>
    intro m hm
    have hpow : 2 ^ (c :: r).length = 2 ^ r.length + 2 ^ r.length := by
      simp [List.length_cons, pow_succ]; ring
    simp only [semL] at hm
    split at hm
    · have := ih m hm; omega
    · split at hm
      · rcases List.mem_map.mp hm with ⟨x, hx, rfl⟩
        have := ih x hx; omega
      · rcases List.mem_append.mp hm with h | h
        · have := ih m h; omega
        · rcases List.mem_map.mp h with ⟨x, hx, rfl⟩
          have := ih x hx; omega

theorem length_toBin (n m : Nat) : (toBin n m).length = n := by
  induction n generalizing m with
  | zero => rfl
  | succ n ih => simp [toBin, ih]

theorem wf_toBin (n m : Nat) : wfRep (toBin n m) := by
  induction n generalizing m with
  | zero => intro c hc; simp [toBin] at hc
  | succ n ih =>
    intro c hc
    simp only [toBin, List.mem_cons] at hc
    rcases hc with rfl | hc
    · split <;> simp
    · exact ih _ c hc

theorem dash_not_mem_toBin (n m : Nat) : '-' ∉ toBin n m := by
  induction n generalizing m with
  | zero => simp [toBin]
  | succ n ih =>
    simp only [toBin, List.mem_cons, not_or]
    constructor
    · split <;> simp
    · exact ih _

theorem semL_toBin (n m : Nat) (h : m < 2 ^ n) : semL (toBin n m) = [m] := by
  induction n generalizing m with
  | zero =>
    have : m = 0 := by simpa using h
    subst this; rfl
  | succ n ih =>
    have hpow : 2 ^ (n + 1) = 2 ^ n + 2 ^ n := by rw [pow_succ]; ring
    by_cases hm : 2 ^ n ≤ m
    · have hmod : m % 2 ^ n = m - 2 ^ n := by
        rw [Nat.mod_eq_sub_mod hm, Nat.mod_eq_of_lt]; omega
      have hlt : m - 2 ^ n < 2 ^ n := by omega
      simp only [toBin, if_pos hm, semL, length_toBin, hmod, ih _ hlt]
      simp
      omega
    · have hlt : m < 2 ^ n := by omega
      have hmod : m % 2 ^ n = m := Nat.mod_eq_of_lt hlt
      simp only [toBin, if_neg hm, semL, hmod, ih _ hlt]
      simp

theorem semL_cons_zero (r : Rep) : semL ('0' :: r) = semL r := by simp [semL]

theorem semL_cons_one (r : Rep) :
    semL ('1' :: r) = (semL r).map (· + 2 ^ r.length) := by simp [semL]

theorem semL_cons_dash (r : Rep) :
    semL ('-' :: r) = semL r ++ (semL r).map (· + 2 ^ r.length) := by simp [semL]

theorem low_not_mem_shift {r r' : Rep} (h : r.length = r'.length) {m : Nat}
    (hm : m ∈ semL r) : m ∉ (semL r').map (· + 2 ^ r'.length) := by
  intro hmem
  rcases List.mem_map.mp hmem with ⟨x, _, hx⟩
  have h1 := semL_lt r m hm
  rw [h] at h1
  omega

theorem shift_not_mem_low {r r' : Rep} (h : r.length = r'.length) {m : Nat}
    (hm : m ∈ (semL r).map (· + 2 ^ r.length)) : m ∉ semL r' := by
  intro hmem
  rcases List.mem_map.mp hm with ⟨x, _, hx⟩
  have h1 := semL_lt r' m hmem
  rw [← h] at h1
  omega

theorem sem_head_mono {c : Char} {r1 r2 : Rep} (hlen : r1.length = r2.length)
    (hsub : ∀ m ∈ semL r1, m ∈ semL r2) : ∀ m ∈ semL (c :: r1), m ∈ semL (c :: r2) := by
  intro m hm
  simp only [semL] at hm ⊢
  by_cases h0 : c = '0'
  · simp only [if_pos h0] at hm ⊢
    exact hsub m hm
  · by_cases h1 : c = '1'
    · simp only [if_neg h0, if_pos h1] at hm ⊢
      rcases List.mem_map.mp hm with ⟨x, hx, rfl⟩
      exact List.mem_map.mpr ⟨x, hsub x hx, by rw [hlen]⟩
    · simp only [if_neg h0, if_neg h1] at hm ⊢
      rcases List.mem_append.mp hm with h | h
      · exact List.mem_append.mpr (.inl (hsub m h))
      · rcases List.mem_map.mp h with ⟨x, hx, rfl⟩
        exact List.mem_append.mpr (.inr (List.mem_map.mpr ⟨x, hsub x hx, by rw [hlen]⟩))

theorem sem_sub_dash (c : Char) (r : Rep) : ∀ m ∈ semL (c :: r), m ∈ semL ('-' :: r) := by
  intro m hm
  rw [semL_cons_dash]
  simp only [semL] at hm
  by_cases h0 : c = '0'
  · rw [if_pos h0] at hm
    exact List.mem_append.mpr (.inl hm)
  · by_cases h1 : c = '1'
    · rw [if_neg h0, if_pos h1] at hm
      exact List.mem_append.mpr (.inr hm)
    · rw [if_neg h0, if_neg h1] at hm
      exact hm

theorem containsB_subset : ∀ (a b : Rep), a.length = b.length → containsB a b = true →
    ∀ m ∈ semL a, m ∈ semL b := by
  intro a
  induction a with
  | nil =>
    intro b hlen _ m hm
    have hb : b = [] := List.length_eq_zero.mp hlen.symm
    subst hb
    exact hm
  | cons c1 r1 ih =>
    intro b hlen hc m hm
    cases b with
    | nil => simp at hlen
    | cons c2 r2 =>
      have hlen' : r1.length = r2.length := by simpa using hlen
      have hsplit : containsB r1 r2 = true ∧ ¬(c1 ≠ '-' ∧ c2 ≠ '-' ∧ c1 ≠ c2) ∧
          ¬(c1 = '-' ∧ c2 ≠ '-') := by
        by_cases h1 : c1 ≠ '-' ∧ c2 ≠ '-' ∧ c1 ≠ c2
        · simp [containsB, h1] at hc
        · by_cases h2 : c1 = '-' ∧ c2 ≠ '-'
          · simp [containsB, h1, h2] at hc
          · exact ⟨by simpa [containsB, h1, h2] using hc, h1, h2⟩
      rcases hsplit with ⟨hrec, hnd, hdd⟩
      by_cases hc2 : c2 = '-'
      · subst hc2
        exact sem_head_mono hlen' (ih r2 hlen' hrec) m (sem_sub_dash c1 r1 m hm)
      · have hc1 : c1 ≠ '-' := fun h => hdd ⟨h, hc2⟩
        have heq : c1 = c2 := by
          by_contra hne
          exact hnd ⟨hc1, hc2, hne⟩
        subst heq
        exact sem_head_mono hlen' (ih r2 hlen' hrec) m hm

theorem not_containsB_witness : ∀ (a b : Rep), a.length = b.length → wfRep a → wfRep b →
    containsB a b = false → ∃ m, m ∈ semL a ∧ m ∉ semL b := by
  intro a
  induction a with
  | nil =>
    intro b hlen _ _ hfalse
    have hb : b = [] := List.length_eq_zero.mp hlen.symm
    subst hb
    simp [containsB] at hfalse
  | cons c1 r1 ih =>
    intro b hlen ha hb hfalse
    cases b with
    | nil => simp at hlen
    | cons c2 r2 =>
      have hlen' : r1.length = r2.length := by simpa using hlen
      have ha1 := ha c1 (List.mem_cons_self _ _)
      have hb1 := hb c2 (List.mem_cons_self _ _)
      have ha' : wfRep r1 := fun c hc => ha c (List.mem_cons_of_mem _ hc)
      have hb' : wfRep r2 := fun c hc => hb c (List.mem_cons_of_mem _ hc)
      rcases List.exists_mem_of_ne_nil _ (semL_ne_nil r1) with ⟨x, hx⟩
      by_cases h1 : c1 ≠ '-' ∧ c2 ≠ '-' ∧ c1 ≠ c2
      · rcases h1 with ⟨hz1, hz2, hne⟩
        rcases ha1 with rfl | rfl | rfl
        · have hc2 : c2 = '1' := by
            rcases hb1 with rfl | rfl | rfl
            · exact absurd rfl hne
            · rfl
            · exact absurd rfl hz2
          subst hc2
          refine ⟨x, by rwa [semL_cons_zero], ?_⟩
          rw [semL_cons_one]
          exact low_not_mem_shift hlen' hx
        · have hc2 : c2 = '0' := by
            rcases hb1 with rfl | rfl | rfl
            · rfl
            · exact absurd rfl hne
            · exact absurd rfl hz2
          subst hc2
          refine ⟨x + 2 ^ r1.length, ?_, ?_⟩
          · rw [semL_cons_one]
            exact List.mem_map.mpr ⟨x, hx, rfl⟩
          · rw [semL_cons_zero]
            exact shift_not_mem_low hlen' (List.mem_map.mpr ⟨x, hx, rfl⟩)
        · exact absurd rfl hz1
      · by_cases h2 : c1 = '-' ∧ c2 ≠ '-'
        · rcases h2 with ⟨rfl, hz2⟩
          rcases hb1 with rfl | rfl | rfl
          · refine ⟨x + 2 ^ r1.length, ?_, ?_⟩
            · rw [semL_cons_dash]
              exact List.mem_append.mpr (.inr (List.mem_map.mpr ⟨x, hx, rfl⟩))
            · rw [semL_cons_zero]
              exact shift_not_mem_low hlen' (List.mem_map.mpr ⟨x, hx, rfl⟩)
          · refine ⟨x, ?_, ?_⟩
            · rw [semL_cons_dash]
              exact List.mem_append.mpr (.inl hx)
            · rw [semL_cons_one]
              exact low_not_mem_shift hlen' hx
          · exact absurd rfl hz2
        · have hrec : containsB r1 r2 = false := by
            simpa [containsB, h1, h2] using hfalse
          rcases ih r2 hlen' ha' hb' hrec with ⟨y, hy1, hy2⟩
          have hk : 2 ^ r1.length = 2 ^ r2.length := by rw [hlen']
          have hylt := semL_lt r1 y hy1
          rcases ha1 with rfl | rfl | rfl
          · -- c1 = '0'; c2 ∈ {'0', '-'}
            have hc2 : c2 = '0' ∨ c2 = '-' := by
              rcases hb1 with rfl | rfl | rfl
              · exact .inl rfl
              · exact absurd ⟨by decide, by decide, by decide⟩ h1
              · exact .inr rfl
            refine ⟨y, by rwa [semL_cons_zero], ?_⟩
            rcases hc2 with rfl | rfl
            · rwa [semL_cons_zero]
            · rw [semL_cons_dash]
              intro hmem
              rcases List.mem_append.mp hmem with h | h
              · exact hy2 h
              · exact low_not_mem_shift hlen' hy1 h
          · -- c1 = '1'; c2 ∈ {'1', '-'}
            have hc2 : c2 = '1' ∨ c2 = '-' := by
              rcases hb1 with rfl | rfl | rfl
              · exact absurd ⟨by decide, by decide, by decide⟩ h1
              · exact .inl rfl
              · exact .inr rfl
            refine ⟨y + 2 ^ r1.length, ?_, ?_⟩
            · rw [semL_cons_one]
              exact List.mem_map.mpr ⟨y, hy1, rfl⟩
            · have hnotshift : y + 2 ^ r1.length ∉ (semL r2).map (· + 2 ^ r2.length) := by
                intro hmem
                rcases List.mem_map.mp hmem with ⟨z, hz, hzeq⟩
                have : z = y := by omega
                subst this
                exact hy2 hz
              rcases hc2 with rfl | rfl
              · rw [semL_cons_one]
                exact hnotshift
              · rw [semL_cons_dash]
                intro hmem
                rcases List.mem_append.mp hmem with h | h
                · have := semL_lt r2 _ h
                  omega
                · exact hnotshift h
          · -- c1 = '-'; then c2 = '-' (else h2)
            have hc2 : c2 = '-' := by
              by_contra hne
              exact h2 ⟨rfl, hne⟩
            subst hc2
            refine ⟨y, ?_, ?_⟩
            · rw [semL_cons_dash]
              exact List.mem_append.mpr (.inl hy1)
            · rw [semL_cons_dash]
              intro hmem
              rcases List.mem_append.mp hmem with h | h
              · exact hy2 h
              · exact low_not_mem_shift hlen' hy1 h

theorem length_combineRepR (a b : Rep) (h : a.length = b.length) :
    (combineRepR a b).length = a.length := by
  simp [combineRepR, h]

theorem combineRepR_self (r : Rep) : combineRepR r r = r := by
  induction r with
  | nil => rfl
  | cons c r ih =>
    simp [combineRepR] at ih ⊢

theorem combineRepR_comm : ∀ (a b : Rep), combineRepR a b = combineRepR b a := by
  intro a
  induction a with
  | nil => intro b; cases b <;> rfl
  | cons c1 r1 ih =>
    intro b
    cases b with
    | nil => rfl
    | cons c2 r2 =>
      have hh : (if c1 = c2 then c1 else '-') = (if c2 = c1 then c2 else '-') := by
        by_cases h : c1 = c2
        · subst h
          simp
        · rw [if_neg h, if_neg (fun hh => h hh.symm)]
      show (if c1 = c2 then c1 else '-') :: combineRepR r1 r2 =
        (if c2 = c1 then c2 else '-') :: combineRepR r2 r1
      rw [hh, ih r2]

theorem distanceB_zero_eq : ∀ (a b : Rep), a.length = b.length →
    alignedB a b = true → distanceB a b = 0 → a = b := by
  intro a
  induction a with
  | nil =>
    intro b hlen _ _
    exact (List.length_eq_zero.mp hlen.symm).symm
  | cons c1 r1 ih =>
    intro b hlen hal hdist
    cases b with
    | nil => simp at hlen
    | cons c2 r2 =>
      have hlen' : r1.length = r2.length := by simpa using hlen
      have hal' : alignedB r1 r2 = true := by
        simp only [alignedB, Bool.and_eq_true] at hal
        exact hal.2
      have halh : (decide (c1 = '-') == decide (c2 = '-')) = true := by
        simp only [alignedB, Bool.and_eq_true] at hal
        exact hal.1
      have hdist' : distanceB r1 r2 = 0 ∧ ¬(c1 ≠ '-' ∧ c2 ≠ '-' ∧ c1 ≠ c2) := by
        by_cases hd : c1 ≠ '-' ∧ c2 ≠ '-' ∧ c1 ≠ c2
        · simp [distanceB, hd] at hdist
        · refine ⟨?_, hd⟩
          simpa [distanceB, hd] using hdist
      have htails := ih r2 hlen' hal' hdist'.1
      subst htails
      by_cases h1 : c1 = '-'
      · have h2 : c2 = '-' := by
          subst h1
          simpa using halh
        rw [h1, h2]
      · have h2 : c2 ≠ '-' := by
          intro h2
          subst h2
          simp [h1] at halh
        have : c1 = c2 := by
          by_contra hne
          exact hdist'.2 ⟨h1, h2, hne⟩
        rw [this]

theorem semL_sub_combineRep_left : ∀ (a b : Rep), a.length = b.length →
    ∀ m ∈ semL a, m ∈ semL (combineRepR a b) := by
  intro a
  induction a with
  | nil =>
    intro b hlen m hm
    have hb : b = [] := List.length_eq_zero.mp hlen.symm
    subst hb
    exact hm
  | cons c1 r1 ih =>
    intro b hlen m hm
    cases b with
    | nil => simp at hlen
    | cons c2 r2 =>
      have hlen' : r1.length = r2.length := by simpa using hlen
      have hlc : r1.length = (combineRepR r1 r2).length :=
        (length_combineRepR r1 r2 hlen').symm
      have hcomb : combineRepR (c1 :: r1) (c2 :: r2) =
          (if c1 = c2 then c1 else '-') :: combineRepR r1 r2 := by
        simp [combineRepR]
      rw [hcomb]
      by_cases h : c1 = c2
      · rw [if_pos h]
        exact sem_head_mono hlc (ih r2 hlen') m hm
      · rw [if_neg h]
        exact sem_head_mono hlc (ih r2 hlen') m (sem_sub_dash c1 r1 m hm)

theorem semL_sub_combineRep_right (a b : Rep) (h : a.length = b.length) :
    ∀ m ∈ semL b, m ∈ semL (combineRepR a b) := by
  rw [combineRepR_comm]
  exact semL_sub_combineRep_left b a h.symm

theorem semL_combineRep_union : ∀ (a b : Rep), a.length = b.length →
    wfRep a → wfRep b → alignedB a b = true → distanceB a b = 1 →
    ∀ m, m ∈ semL (combineRepR a b) ↔ (m ∈ semL a ∨ m ∈ semL b) := by
  intro a
  induction a with
  | nil =>
    intro b hlen _ _ _ hdist
    have hb : b = [] := List.length_eq_zero.mp hlen.symm
    subst hb
    simp [distanceB] at hdist
  | cons c1 r1 ih =>
    intro b hlen ha hb hal hdist
    cases b with
    | nil => simp at hlen
    | cons c2 r2 =>
      have hlen' : r1.length = r2.length := by simpa using hlen
      have ha1 := ha c1 (List.mem_cons_self _ _)
      have hb1 := hb c2 (List.mem_cons_self _ _)
      have ha' : wfRep r1 := fun c hc => ha c (List.mem_cons_of_mem _ hc)
      have hb' : wfRep r2 := fun c hc => hb c (List.mem_cons_of_mem _ hc)
      have hal' : alignedB r1 r2 = true := by
        simp only [alignedB, Bool.and_eq_true] at hal
        exact hal.2
      have halh : (decide (c1 = '-') == decide (c2 = '-')) = true := by
        simp only [alignedB, Bool.and_eq_true] at hal
        exact hal.1
      have hcomb : combineRepR (c1 :: r1) (c2 :: r2) =
          (if c1 = c2 then c1 else '-') :: combineRepR r1 r2 := by
        simp [combineRepR]
      have hlc : (combineRepR r1 r2).length = r1.length := length_combineRepR r1 r2 hlen'
      intro m
      by_cases h : c1 = c2
      · -- equal heads: all the distance is in the tails
        have hdist' : distanceB r1 r2 = 1 := by
          simpa [distanceB, h] using hdist
        have IH := ih r2 hlen' ha' hb' hal' hdist'
        subst h
        rw [hcomb, if_pos rfl]
        rcases ha1 with rfl | rfl | rfl
        · rw [semL_cons_zero, semL_cons_zero, semL_cons_zero]
          exact IH m
        · rw [semL_cons_one, semL_cons_one, semL_cons_one, hlc, hlen']
          constructor
          · intro hm
            rcases List.mem_map.mp hm with ⟨x, hx, rfl⟩
            rcases (IH x).mp hx with hx' | hx'
            · exact .inl (List.mem_map.mpr ⟨x, hx', rfl⟩)
            · exact .inr (List.mem_map.mpr ⟨x, hx', rfl⟩)
          · intro hm
            rcases hm with hm | hm
            · rcases List.mem_map.mp hm with ⟨x, hx, rfl⟩
              exact List.mem_map.mpr ⟨x, (IH x).mpr (.inl hx), rfl⟩
            · rcases List.mem_map.mp hm with ⟨x, hx, rfl⟩
              exact List.mem_map.mpr ⟨x, (IH x).mpr (.inr hx), rfl⟩
        · rw [semL_cons_dash, semL_cons_dash, semL_cons_dash, hlc, hlen']
          constructor
          · intro hm
            rcases List.mem_append.mp hm with hm | hm
            · rcases (IH m).mp hm with h' | h'
              · exact .inl (List.mem_append.mpr (.inl h'))
              · exact .inr (List.mem_append.mpr (.inl h'))
            · rcases List.mem_map.mp hm with ⟨x, hx, rfl⟩
              rcases (IH x).mp hx with h' | h'
              · exact .inl (List.mem_append.mpr (.inr (List.mem_map.mpr ⟨x, h', rfl⟩)))
              · exact .inr (List.mem_append.mpr (.inr (List.mem_map.mpr ⟨x, h', rfl⟩)))
          · intro hm
            rcases hm with hm | hm
            · rcases List.mem_append.mp hm with hm | hm
              · exact List.mem_append.mpr (.inl ((IH m).mpr (.inl hm)))
              · rcases List.mem_map.mp hm with ⟨x, hx, rfl⟩
                exact List.mem_append.mpr
                  (.inr (List.mem_map.mpr ⟨x, (IH x).mpr (.inl hx), rfl⟩))
            · rcases List.mem_append.mp hm with hm | hm
              · exact List.mem_append.mpr (.inl ((IH m).mpr (.inr hm)))
              · rcases List.mem_map.mp hm with ⟨x, hx, rfl⟩
                exact List.mem_append.mpr
                  (.inr (List.mem_map.mpr ⟨x, (IH x).mpr (.inr hx), rfl⟩))
      · -- the single differing position is at the head
        have hz1 : c1 ≠ '-' := by
          intro hz
          subst hz
          have h2 : c2 = '-' := by simpa using halh
          exact h h2.symm
        have hz2 : c2 ≠ '-' := by
          intro hz
          subst hz
          simp [hz1] at halh
        have hdist' : distanceB r1 r2 = 0 := by
          have := hdist
          simp only [distanceB] at this
          rw [if_pos ⟨hz1, hz2, h⟩] at this
          omega
        have hteq : r1 = r2 := distanceB_zero_eq r1 r2 hlen' hal' hdist'
        subst hteq
        rw [hcomb, if_neg h, combineRepR_self, semL_cons_dash]
        rcases ha1 with rfl | rfl | rfl
        · have hc2 : c2 = '1' := by
            rcases hb1 with rfl | rfl | rfl
            · exact absurd rfl h
            · rfl
            · exact absurd rfl hz2
          subst hc2
          rw [semL_cons_zero, semL_cons_one]
          exact List.mem_append
        · have hc2 : c2 = '0' := by
            rcases hb1 with rfl | rfl | rfl
            · rfl
            · exact absurd rfl h
            · exact absurd rfl hz2
          subst hc2
          rw [semL_cons_one, semL_cons_zero]
          rw [List.mem_append]
          exact Or.comm
        · exact absurd rfl hz1

theorem zipWith_mergeChar_eq_combineRep : ∀ (a b : Rep), alignedB a b = true →
    List.zipWith mergeChar a b = combineRepR a b := by
  intro a
  induction a with
  | nil => intro b _; cases b <;> rfl
  | cons c1 r1 ih =>
    intro b hal
    cases b with
    | nil => simp [alignedB] at hal
    | cons c2 r2 =>
      have hal' : alignedB r1 r2 = true := by
        simp only [alignedB, Bool.and_eq_true] at hal
        exact hal.2
      have halh : (decide (c1 = '-') == decide (c2 = '-')) = true := by
        simp only [alignedB, Bool.and_eq_true] at hal
        exact hal.1
      have hcomb : combineRepR (c1 :: r1) (c2 :: r2) =
          (if c1 = c2 then c1 else '-') :: combineRepR r1 r2 := by
        simp [combineRepR]
      rw [hcomb, List.zipWith_cons_cons, ih r2 hal']
      congr 1
      by_cases h : c1 = c2
      · simp [mergeChar, h]
      · have hz1 : c1 ≠ '-' := by
          intro hz
          subst hz
          have h2 : c2 = '-' := by simpa using halh
          exact h h2.symm
        have hz2 : c2 ≠ '-' := by
          intro hz
          subst hz
          simp [hz1] at halh
        simp [mergeChar, h, hz1, hz2]

/-- C4 counterexample: at a = "1-", b = "11" every minterm of b lies in a's
minterm set (and every defined literal of a matches the corresponding literal
of b), yet Cube.contains(a, b) returns False — the claimed equivalence fails
on the code. -/
theorem cube_contains_claim_cex :
    semL ['1','1'] ⊆ semL ['1','-'] ∧ containsB ['1','-'] ['1','1'] = false := by
  decide

/-- C4 (amended): for equal-length well-formed cubes, Cube.contains(a, b)
returns True iff a's minterm set is a subset of b's minterm set — the reverse
of the claimed direction.  Equivalently: at every position b's literal is a
don't-care or equals a's literal. -/
theorem cube_contains_iff_subset (a b : Rep) (hlen : a.length = b.length)
    (ha : wfRep a) (hb : wfRep b) :
    containsB a b = true ↔ ∀ m ∈ semL a, m ∈ semL b := by
  constructor
  · exact containsB_subset a b hlen
  · intro hsub
    by_contra hfalse
    have hf : containsB a b = false := by
      cases h : containsB a b
      · rfl
      · exact absurd h hfalse
    rcases not_containsB_witness a b hlen ha hb hf with ⟨m, hm1, hm2⟩
    exact hm2 (hsub m hm1)

/-- Witness for the amended C4 theorem at a concrete input. -/
theorem cube_contains_iff_subset_witness :
    containsB ['0','1'] ['-','1'] = true ↔ ∀ m ∈ semL ['0','1'], m ∈ semL ['-','1'] :=
  cube_contains_iff_subset ['0','1'] ['-','1'] rfl (by decide) (by decide)

/-- C5 counterexample: a = "-0" and b = "11" are at distance 1, so Cube.merge
succeeds, but the merged cube "1-" misses minterm 0, which a covers: the
merged cube's minterm set is not the union of the two inputs' minterm sets. -/
theorem cube_merge_union_cex :
    distanceB ['-','0'] ['1','1'] = 1 ∧
    mergeB ['-','0'] ['1','1'] = some ['1','-'] ∧
    (0 : Nat) ∈ semL ['-','0'] ∧ (0 : Nat) ∉ semL ['1','-'] := by
  decide

/-- C5 (amended): merge(a, b) fails exactly when distance(a, b) ≠ 1; at
distance 1 it succeeds, and if additionally the two cubes have their
don't-cares at the same positions (always the case for the pairs combined by
Term.combine_with in quine_mccluskey.py), the merged cube's minterm set is
the exact union of the inputs' minterm sets.  Without the alignment
assumption the union equality can fail. -/
theorem cube_merge_correctness (a b : Rep) (hlen : a.length = b.length)
    (ha : wfRep a) (hb : wfRep b) :
    (distanceB a b ≠ 1 → mergeB a b = none) ∧
    (distanceB a b = 1 → mergeB a b = some (List.zipWith mergeChar a b) ∧
      (alignedB a b = true →
        ∀ m, m ∈ semL (List.zipWith mergeChar a b) ↔ (m ∈ semL a ∨ m ∈ semL b))) := by
  refine ⟨fun h => by simp [mergeB, h], fun h => ⟨by simp [mergeB, h], fun hal m => ?_⟩⟩
  rw [zipWith_mergeChar_eq_combineRep a b hal]
  exact semL_combineRep_union a b hlen ha hb hal h m

/-- Witness for the C5 theorem at a concrete input. -/
theorem cube_merge_correctness_witness :
    (distanceB ['0','1'] ['0','0'] ≠ 1 → mergeB ['0','1'] ['0','0'] = none) ∧
    (distanceB ['0','1'] ['0','0'] = 1 →
      mergeB ['0','1'] ['0','0'] = some (List.zipWith mergeChar ['0','1'] ['0','0']) ∧
      (alignedB ['0','1'] ['0','0'] = true →
        ∀ m, m ∈ semL (List.zipWith mergeChar ['0','1'] ['0','0']) ↔
          (m ∈ semL ['0','1'] ∨ m ∈ semL ['0','0']))) :=
  cube_merge_correctness ['0','1'] ['0','0'] rfl (by decide) (by decide)

theorem mem_insertSorted (m y : Nat) :
    ∀ (l : List Nat), (y ∈ insertSorted m l ↔ y = m ∨ y ∈ l) := by
  intro l
  induction l with
  | nil => simp [insertSorted]
  | cons x xs ih =>
    simp only [insertSorted]
    split
    · simp [List.mem_cons]
    · split
      · rename_i hlt heq
        subst heq
        simp [List.mem_cons]
      · simp only [List.mem_cons, ih]
        tauto

theorem mem_sortDedup (y : Nat) (l : List Nat) : y ∈ sortDedup l ↔ y ∈ l := by
  induction l with
  | nil => simp [sortDedup]
  | cons x xs ih =>
    simp only [sortDedup, List.foldr_cons] at ih ⊢
    rw [mem_insertSorted]
    simp [ih, List.mem_cons]

/-- C1: with n = 1, onSet = {0}, dontCare = ∅ — a valid input — the
heuristic engine returns the single all-DontCare cube with expression "1"
and cost 0.  That cube covers minterm 1, which lies in the off-set, so the
returned cover is not off-set-disjoint: the REDUCE phase's unconditionally
true _maintains_coverage collapses every cover to the tautology. -/
theorem espresso_minimize_covers_offset_bug :
    espressoMinimize 1 [0] [] 20 = ⟨[['-']], "1", 1, 0, 1⟩ ∧
    (1 : Nat) ∈ semL ['-'] ∧ (1 : Nat) ∉ ([0] : List Nat) := by
  decide

/-- C3 counterexample: on a coverage table in which no prime implicant
covers the remaining minterm 0, _solve_covering_problem returns the empty
selection as a perfectly normal value, leaving minterm 0 uncovered; the
function has no error exit at all, so no internal-consistency failure is
observable by the caller. -/
theorem solve_covering_silent_cex :
    solveCoveringProblem [] {0} = [] ∧
    ¬ ∃ t ∈ solveCoveringProblem [] {0}, (0 : Nat) ∈ t.minterms := by
  refine ⟨rfl, ?_⟩
  rintro ⟨t, ht, _⟩
  rw [show solveCoveringProblem [] {0} = [] from rfl] at ht
  exact absurd ht (List.not_mem_nil t)

/-- C3 (amended): when no prime implicant of the coverage table covers any
uncovered minterm, _solve_covering_problem silently stops and returns the
empty selection as a normal value; no error is raised (the function has no
error path).  On valid input this situation never arises through minimize,
whose selected PIs cover every on-set minterm (the C9 theorem). -/
theorem solve_covering_returns_empty_when_stuck
    (coverage : List (Term × Finset Nat)) (uncovered : Finset Nat)
    (h : ∀ pc ∈ coverage, pc.2 ∩ uncovered = ∅) :
    solveCoveringProblem coverage uncovered = [] := by
  have hrel : ∀ (l : List (Term × Finset Nat)), (∀ pc ∈ l, pc.2 ∩ uncovered = ∅) →
      l.foldl (fun acc pc =>
        let rc := pc.2 ∩ uncovered
        if rc = ∅ then acc else acc ++ [(pc.1, rc)]) [] = [] := by
    intro l
    have main : ∀ (l' : List (Term × Finset Nat)) (acc : List (Term × Finset Nat)),
        (∀ pc ∈ l', pc.2 ∩ uncovered = ∅) →
        l'.foldl (fun acc pc =>
          let rc := pc.2 ∩ uncovered
          if rc = ∅ then acc else acc ++ [(pc.1, rc)]) acc = acc := by
      intro l'
      induction l' with
      | nil => intro acc _; rfl
      | cons pc rest ih =>
        intro acc hall
        have h1 : pc.2 ∩ uncovered = ∅ := hall pc (List.mem_cons_self _ _)
        simp only [List.foldl_cons, h1, if_pos rfl]
        exact ih acc (fun qc hqc => hall qc (List.mem_cons_of_mem _ hqc))
    exact main l []
  unfold solveCoveringProblem
  by_cases hu : uncovered = ∅
  · rw [if_pos hu]
  · rw [if_neg hu]
    simp only [hrel coverage h]
    simp [greedyLoop]

/-- Witness for the amended C3 theorem at a concrete stuck input. -/
theorem solve_covering_returns_empty_when_stuck_witness :
    solveCoveringProblem [(⟨{5}, ['1']⟩, {5})] {0} = [] :=
  solve_covering_returns_empty_when_stuck [(⟨{5}, ['1']⟩, {5})] {0} (by decide)

/-- C6 counterexample: n = 1 with onSet = {0} and dontCare = {0} overlap,
yet set_function accepts the input (Except.ok) and minimize then produces a
normal minimization result, selecting the cube "0" at cost 1 — the engine
does not fail fast on overlapping on/don't-care sets. -/
theorem qm_set_function_overlap_cex :
    qmSetFunction 1 [0] [0] = Except.ok ⟨1, [0], [0]⟩ ∧
    (qmMinimize ⟨1, [0], [0]⟩).selected = [⟨{0}, ['0']⟩] ∧
    (qmMinimize ⟨1, [0], [0]⟩).cost = 1 :=
  ⟨rfl, by decide, by decide⟩

/-- C6 (amended): QuineMcCluskey.set_function fails exactly when some
minterm or don't-care exceeds 2^n - 1 — range violations are caught, but
overlapping on/don't-care sets are accepted without error, and
EspressoAlgorithm.set_function performs no validation at all (it is a total
function on every input, as witnessed by its second component below). -/
theorem qm_set_function_validation (n : Nat) (mts dcs : List Nat) :
    ((∃ st, qmSetFunction n mts dcs = Except.ok st) ↔
      ∀ m ∈ mts ++ dcs, m ≤ 2 ^ n - 1) ∧
    (espressoSetFunction n mts dcs).numVariables = n := by
  constructor
  · have hcond : qmSetFunction n mts dcs =
        (if ((sortDedup mts ++ sortDedup dcs).any fun m => decide (2 ^ n - 1 < m)) = true then
          Except.error "Minterm out of range"
        else Except.ok ⟨n, sortDedup mts, sortDedup dcs⟩) := rfl
    rw [hcond]
    by_cases hany :
        ((sortDedup mts ++ sortDedup dcs).any fun m => decide (2 ^ n - 1 < m)) = true
    · rw [if_pos hany]
      simp only [List.any_eq_true, decide_eq_true_eq] at hany
      rcases hany with ⟨m, hm, hgt⟩
      constructor
      · rintro ⟨st, hst⟩
        simp at hst
      · intro hall
        rcases List.mem_append.mp hm with h | h
        · exact absurd (hall m (List.mem_append.mpr (.inl ((mem_sortDedup m mts).mp h))))
            (by omega)
        · exact absurd (hall m (List.mem_append.mpr (.inr ((mem_sortDedup m dcs).mp h))))
            (by omega)
    · rw [if_neg hany]
      simp only [List.any_eq_true, decide_eq_true_eq, not_exists, not_and] at hany
      constructor
      · intro _ m hm
        rcases List.mem_append.mp hm with h | h
        · have := hany m (List.mem_append.mpr (.inl ((mem_sortDedup m mts).mpr h)))
          omega
        · have := hany m (List.mem_append.mpr (.inr ((mem_sortDedup m dcs).mpr h)))
          omega
      · intro _
        exact ⟨_, rfl⟩
  · rfl

/-- C7 counterexample: for n = 1 and onSet = all minterms {0, 1}, minimize
returns expression "1" with cost 1 rather than the claimed 0; moreover the
selected cover is the single zero-literal cube "-", so the reported cost (1)
also differs from the claimed sum of literal counts over the selected cubes
(which is 0). -/
theorem qm_minimize_cost_cex :
    qmMinimize ⟨1, [0, 1], []⟩ =
      ⟨"1", [⟨{0, 1}, ['-']⟩], [⟨{0, 1}, ['-']⟩], [⟨{0, 1}, ['-']⟩], 1⟩ ∧
    ((qmMinimize ⟨1, [0, 1], []⟩).selected.map (fun t => literalCountR t.rep)).sum = 0 := by
  decide

/-- C8 counterexample: two prime implicants tie at covering the single
remaining minterm 3, and the second-listed one has the smaller literal
count (1 versus 2); the greedy solver nevertheless selects the first-listed
PI with the larger literal count — no literal-count or lexicographic
tie-break exists in the code. -/
theorem greedy_tiebreak_cex :
    solveCoveringProblem [(⟨{3}, ['1', '1']⟩, {3}), (⟨{3}, ['1', '-']⟩, {3})] {3}
      = [⟨{3}, ['1', '1']⟩] ∧
    literalCountR ['1', '-'] < literalCountR ['1', '1'] := by
  decide

theorem bestFold_some (remaining : Finset Nat) :
    ∀ (l : List (Term × Finset Nat)) (b : (Term × Finset Nat) × Nat),
    b.2 = (b.1.2 ∩ remaining).card → 0 < b.2 →
    ∃ pc sz, l.foldl (bestStep remaining) (some b) = some (pc, sz) ∧
      sz = (pc.2 ∩ remaining).card ∧ 0 < sz ∧
      ((pc = b.1 ∧ sz = b.2 ∧ ∀ qc ∈ l, (qc.2 ∩ remaining).card ≤ sz) ∨
       (∃ l1 l2, l = l1 ++ pc :: l2 ∧ b.2 < sz ∧
         (∀ qc ∈ l1, (qc.2 ∩ remaining).card < sz) ∧
         (∀ qc ∈ l2, (qc.2 ∩ remaining).card ≤ sz))) := by
  intro l
  induction l with
  | nil =>
    intro b hb hpos
    exact ⟨b.1, b.2, rfl, hb, hpos, .inl ⟨rfl, rfl, by simp⟩⟩
  | cons qc l ih =>
    intro b hb hpos
    by_cases hlt : b.2 < (qc.2 ∩ remaining).card
    · have hstep : List.foldl (bestStep remaining) (some b) (qc :: l) =
          List.foldl (bestStep remaining) (some (qc, (qc.2 ∩ remaining).card)) l := by
        cases b with
        | mk b1 b2 => simp [bestStep, hlt]
      rcases ih (qc, (qc.2 ∩ remaining).card) rfl (by omega) with
        ⟨pc, sz, hfold, hsz, hpos', hcases⟩
      refine ⟨pc, sz, by rw [hstep, hfold], hsz, hpos', ?_⟩
      rcases hcases with ⟨hpc, hszeq, hall⟩ | ⟨l1, l2, heq, hblt, h1, h2⟩
      · subst hpc
        exact .inr ⟨[], l, by simp, by simpa [hszeq] using hlt, by simp, hall⟩
      · exact .inr ⟨qc :: l1, l2, by simp [heq], by omega,
          fun rc hrc => by
            rcases List.mem_cons.mp hrc with rfl | hrc
            · omega
            · exact h1 rc hrc, h2⟩
    · have hstep : List.foldl (bestStep remaining) (some b) (qc :: l) =
          List.foldl (bestStep remaining) (some b) l := by
        cases b with
        | mk b1 b2 => simp [bestStep, hlt]
      rcases ih b hb hpos with ⟨pc, sz, hfold, hsz, hpos', hcases⟩
      refine ⟨pc, sz, by rw [hstep, hfold], hsz, hpos', ?_⟩
      rcases hcases with ⟨hpc, hszeq, hall⟩ | ⟨l1, l2, heq, hblt, h1, h2⟩
      · refine .inl ⟨hpc, hszeq, fun rc hrc => ?_⟩
        rcases List.mem_cons.mp hrc with rfl | hrc
        · omega
        · exact hall rc hrc
      · exact .inr ⟨qc :: l1, l2, by simp [heq], hblt,
          fun rc hrc => by
            rcases List.mem_cons.mp hrc with rfl | hrc
            · omega
            · exact h1 rc hrc, h2⟩

theorem bestFold_none (remaining : Finset Nat) :
    ∀ (l : List (Term × Finset Nat)),
    (l.foldl (bestStep remaining) none = none ∧
      ∀ qc ∈ l, (qc.2 ∩ remaining).card = 0) ∨
    (∃ pc sz, l.foldl (bestStep remaining) none = some (pc, sz) ∧
      sz = (pc.2 ∩ remaining).card ∧ 0 < sz ∧
      ∃ l1 l2, l = l1 ++ pc :: l2 ∧
        (∀ qc ∈ l1, (qc.2 ∩ remaining).card < sz) ∧
        (∀ qc ∈ l2, (qc.2 ∩ remaining).card ≤ sz)) := by
  intro l
  induction l with
  | nil => exact .inl ⟨rfl, by simp⟩
  | cons qc l ih =>
    by_cases hpos : 0 < (qc.2 ∩ remaining).card
    · have hstep : List.foldl (bestStep remaining) none (qc :: l) =
          List.foldl (bestStep remaining) (some (qc, (qc.2 ∩ remaining).card)) l := by
        simp [bestStep, hpos]
      rcases bestFold_some remaining l (qc, (qc.2 ∩ remaining).card) rfl hpos with
        ⟨pc, sz, hfold, hsz, hpos', hcases⟩
      refine .inr ⟨pc, sz, by rw [hstep, hfold], hsz, hpos', ?_⟩
      rcases hcases with ⟨hpc, hszeq, hall⟩ | ⟨l1, l2, heq, hblt, h1, h2⟩
      · subst hpc
        exact ⟨[], l, by simp, by simp, hall⟩
      · exact ⟨qc :: l1, l2, by simp [heq], fun rc hrc => by
          rcases List.mem_cons.mp hrc with rfl | hrc
          · omega
          · exact h1 rc hrc, h2⟩
    · have hstep : List.foldl (bestStep remaining) none (qc :: l) =
          List.foldl (bestStep remaining) none l := by
        simp [bestStep, hpos]
      rcases ih with ⟨hfold, hall⟩ | ⟨pc, sz, hfold, hsz, hpos', l1, l2, heq, h1, h2⟩
      · refine .inl ⟨by rw [hstep, hfold], fun rc hrc => ?_⟩
        rcases List.mem_cons.mp hrc with rfl | hrc
        · omega
        · exact hall rc hrc
      · exact .inr ⟨pc, sz, by rw [hstep, hfold], hsz, hpos',
          qc :: l1, l2, by simp [heq], fun rc hrc => by
            rcases List.mem_cons.mp hrc with rfl | hrc
            · omega
            · exact h1 rc hrc, h2⟩

theorem bestOf_first_max (relevant : List (Term × Finset Nat))
    (remaining : Finset Nat) (pc : Term × Finset Nat)
    (h : bestOf relevant remaining = some pc) :
    0 < (pc.2 ∩ remaining).card ∧
    ∃ l1 l2, relevant = l1 ++ pc :: l2 ∧
      (∀ qc ∈ l1, (qc.2 ∩ remaining).card < (pc.2 ∩ remaining).card) ∧
      (∀ qc ∈ l2, (qc.2 ∩ remaining).card ≤ (pc.2 ∩ remaining).card) := by
  unfold bestOf at h
  rcases bestFold_none remaining relevant with ⟨hnone, _⟩ |
    ⟨pc', sz, hfold, hsz, hpos, l1, l2, heq, h1, h2⟩
  · rw [hnone] at h
    simp at h
  · rw [hfold] at h
    simp only [Option.map_some'] at h
    have hpc : pc' = pc := by
      injection h
    subst hpc
    subst hsz
    exact ⟨hpos, l1, l2, heq, h1, h2⟩

/-- C8 (amended): when _solve_covering_problem selects a prime implicant, it
selects the first entry in coverage-table (dictionary-insertion) order whose
remaining-coverage size strictly exceeds every earlier entry's size and is
at least every later entry's size — ties are broken purely by table
position; literal counts and lexicographic order of the cube string play no
role. -/
theorem greedy_selects_first_max (relevant : List (Term × Finset Nat))
    (remaining : Finset Nat) (pc : Term × Finset Nat)
    (h : bestOf relevant remaining = some pc) :
    0 < (pc.2 ∩ remaining).card ∧
    ∃ l1 l2, relevant = l1 ++ pc :: l2 ∧
      (∀ qc ∈ l1, (qc.2 ∩ remaining).card < (pc.2 ∩ remaining).card) ∧
      (∀ qc ∈ l2, (qc.2 ∩ remaining).card ≤ (pc.2 ∩ remaining).card) :=
  bestOf_first_max relevant remaining pc h

/-- Witness for the C8 theorem at a concrete tie input. -/
theorem greedy_selects_first_max_witness :
    0 < (((⟨{3}, ['1', '1']⟩ : Term), ({3} : Finset Nat)).2 ∩ {3}).card ∧
    ∃ l1 l2, [((⟨{3}, ['1', '1']⟩ : Term), ({3} : Finset Nat)), (⟨{3}, ['1', '-']⟩, {3})] =
        l1 ++ ((⟨{3}, ['1', '1']⟩ : Term), ({3} : Finset Nat)) :: l2 ∧
      (∀ qc ∈ l1, (qc.2 ∩ ({3} : Finset Nat)).card <
        (((⟨{3}, ['1', '1']⟩ : Term), ({3} : Finset Nat)).2 ∩ {3}).card) ∧
      (∀ qc ∈ l2, (qc.2 ∩ ({3} : Finset Nat)).card ≤
        (((⟨{3}, ['1', '1']⟩ : Term), ({3} : Finset Nat)).2 ∩ {3}).card) :=
  greedy_selects_first_max
    [((⟨{3}, ['1', '1']⟩ : Term), ({3} : Finset Nat)), (⟨{3}, ['1', '-']⟩, {3})]
    {3} ((⟨{3}, ['1', '1']⟩ : Term), ({3} : Finset Nat)) (by decide)

theorem mem_addCube (cover : List Rep) (x c : Rep) :
    c ∈ addCube cover x ↔ c ∈ cover ∨ c = x := by
  unfold addCube
  split
  · rename_i hx
    constructor
    · exact fun h => .inl h
    · rintro (h | rfl)
      · exact h
      · exact hx
  · simp [List.mem_append]

theorem addCube_ne_nil (cover : List Rep) (x : Rep) : addCube cover x ≠ [] := by
  unfold addCube
  split
  · rename_i hx
    intro h
    subst h
    exact absurd hx (List.not_mem_nil x)
  · simp

theorem mem_foldl_addCube {α : Type} (f : α → Rep) :
    ∀ (l : List α) (acc : List Rep) (c : Rep),
    (c ∈ l.foldl (fun acc x => addCube acc (f x)) acc ↔ c ∈ acc ∨ ∃ x ∈ l, f x = c) := by
  intro l
  induction l with
  | nil => intro acc c; simp
  | cons x l ih =>
    intro acc c
    simp only [List.foldl_cons]
    rw [ih, mem_addCube]
    constructor
    · rintro ((h | h) | ⟨y, hy, rfl⟩)
      · exact .inl h
      · exact .inr ⟨x, by simp, h.symm⟩
      · exact .inr ⟨y, by simp [hy], rfl⟩
    · rintro (h | ⟨y, hy, rfl⟩)
      · exact .inl (.inl h)
      · rcases List.mem_cons.mp hy with rfl | hy
        · exact .inl (.inr rfl)
        · exact .inr ⟨y, hy, rfl⟩

theorem foldl_addCube_ne_nil {α : Type} (f : α → Rep) :
    ∀ (l : List α) (acc : List Rep), (acc ≠ [] ∨ l ≠ []) →
    l.foldl (fun acc x => addCube acc (f x)) acc ≠ [] := by
  intro l
  induction l with
  | nil =>
    intro acc h
    rcases h with h | h
    · exact h
    · exact absurd rfl h
  | cons x l ih =>
    intro acc _
    simp only [List.foldl_cons]
    exact ih _ (.inl (addCube_ne_nil acc (f x)))

theorem getD_set_dash (cur : Rep) (i j : Nat) :
    (cur.set i '-').getD j '-' = if j = i then '-' else cur.getD j '-' := by
  rw [List.getD_eq_getElem?_getD, List.getD_eq_getElem?_getD, List.getElem?_set]
  by_cases h : j = i
  · subst h
    rw [if_pos rfl, if_pos rfl]
    split <;> simp
  · rw [if_neg (fun hh => h hh.symm), if_neg h]

theorem getD_replicate_dash (n j : Nat) : (List.replicate n '-').getD j '-' = '-' := by
  rw [List.getD_eq_getElem?_getD, List.getElem?_replicate]
  split <;> simp

theorem relax_fold_spec (others : List Rep) :
    ∀ (l : List Nat) (cur : Rep),
    ((l.foldl (fun cur i =>
        if cur.getD i '-' ≠ '-' then
          if maintainsCoverage (cur.set i '-') others then cur.set i '-' else cur
        else cur) cur).length = cur.length ∧
     ∀ j, (l.foldl (fun cur i =>
        if cur.getD i '-' ≠ '-' then
          if maintainsCoverage (cur.set i '-') others then cur.set i '-' else cur
        else cur) cur).getD j '-' = if j ∈ l then '-' else cur.getD j '-') := by
  intro l
  induction l with
  | nil => intro cur; exact ⟨rfl, fun j => by simp⟩
  | cons i l ih =>
    intro cur
    have hstep : (if cur.getD i '-' ≠ '-' then
        if maintainsCoverage (cur.set i '-') others then cur.set i '-' else cur
      else cur) = if cur.getD i '-' ≠ '-' then cur.set i '-' else cur := by
      simp [maintainsCoverage]
    have hcur : ∀ j, (if cur.getD i '-' ≠ '-' then cur.set i '-' else cur).getD j '-' =
        if j = i then '-' else cur.getD j '-' := by
      intro j
      by_cases hd : cur.getD i '-' ≠ '-'
      · rw [if_pos hd, getD_set_dash]
      · rw [if_neg hd]
        by_cases hj : j = i
        · subst hj
          rw [if_pos rfl]
          simpa using hd
        · rw [if_neg hj]
    have hlen : (if cur.getD i '-' ≠ '-' then cur.set i '-' else cur).length = cur.length := by
      split
      · exact List.length_set cur i '-'
      · rfl
    simp only [List.foldl_cons, hstep]
    rcases ih (if cur.getD i '-' ≠ '-' then cur.set i '-' else cur) with ⟨ihlen, ihD⟩
    refine ⟨by rw [ihlen, hlen], fun j => ?_⟩
    rw [ihD j]
    by_cases hjl : j ∈ l
    · rw [if_pos hjl, if_pos (List.mem_cons_of_mem _ hjl)]
    · rw [if_neg hjl, hcur j]
      by_cases hji : j = i
      · subst hji
        rw [if_pos rfl, if_pos (List.mem_cons_self _ _)]
      · rw [if_neg hji, if_neg (by
          intro hmem
          rcases List.mem_cons.mp hmem with h | h
          · exact hji h
          · exact hjl h)]

theorem reduceCube_eq_replicate (n : Nat) (cover : List Rep) (cube : Rep)
    (h : cube.length = n) : reduceCube n cover cube = List.replicate n '-' := by
  have heq : reduceCube n cover cube =
      (List.range n).foldl (fun cur i =>
        if cur.getD i '-' ≠ '-' then
          if maintainsCoverage (cur.set i '-')
            (cover.filter (fun c => decide (c ≠ cube))) then cur.set i '-' else cur
        else cur) cube := rfl
  rcases relax_fold_spec (cover.filter (fun c => decide (c ≠ cube)))
    (List.range n) cube with ⟨hlen, hD⟩
  rw [heq]
  rw [List.eq_replicate_iff]
  refine ⟨by rw [hlen, h], fun b hb => ?_⟩
  rcases List.mem_iff_get.mp hb with ⟨⟨j, hj⟩, hget⟩
  have hj' : j < n := by
    rw [hlen, h] at hj
    exact hj
  have hgetD : ((List.range n).foldl (fun cur i =>
      if cur.getD i '-' ≠ '-' then
        if maintainsCoverage (cur.set i '-')
          (cover.filter (fun c => decide (c ≠ cube))) then cur.set i '-' else cur
      else cur) cube).getD j '-' = b := by
    rw [List.getD_eq_getElem?_getD, List.getElem?_eq_getElem hj]
    simpa using hget
  rw [hD j, if_pos (List.mem_range.mpr hj')] at hgetD
  exact hgetD.symm

theorem foldl_addCube_const {α : Type} (g : α → Rep) (x : Rep) :
    ∀ (l : List α), (∀ c ∈ l, g c = x) → l ≠ [] →
    l.foldl (fun acc c => addCube acc (g c)) [] = [x] := by
  have tail : ∀ (l : List α), (∀ c ∈ l, g c = x) →
      l.foldl (fun acc c => addCube acc (g c)) [x] = [x] := by
    intro l
    induction l with
    | nil => intro _; rfl
    | cons c l ih =>
      intro hall
      simp only [List.foldl_cons, hall c (List.mem_cons_self _ _)]
      rw [show addCube [x] x = [x] from by simp [addCube]]
      exact ih (fun d hd => hall d (List.mem_cons_of_mem _ hd))
  intro l hall hne
  cases l with
  | nil => exact absurd rfl hne
  | cons c l =>
    simp only [List.foldl_cons, hall c (List.mem_cons_self _ _)]
    rw [show addCube [] x = [x] from by simp [addCube]]
    exact tail l (fun d hd => hall d (List.mem_cons_of_mem _ hd))

theorem reduceCover_eq (n : Nat) (cover : List Rep) (hne : cover ≠ [])
    (hlen : ∀ c ∈ cover, c.length = n) :
    reduceCover n cover = [List.replicate n '-'] := by
  unfold reduceCover
  exact foldl_addCube_const (fun cube => reduceCube n cover cube) (List.replicate n '-')
    cover (fun c hc => reduceCube_eq_replicate n cover c (hlen c hc)) hne

theorem expandCube_length (n : Nat) (off : List Rep) (cube : Rep) :
    (expandCube n off cube).length = cube.length := by
  have main : ∀ (l : List Nat) (cur : Rep),
      (l.foldl (fun cur i =>
        if cur.getD i '-' ≠ '-' then
          if isValidExpansion off (cur.set i '-') then cur.set i '-' else cur
        else cur) cur).length = cur.length := by
    intro l
    induction l with
    | nil => intro cur; rfl
    | cons i l ih =>
      intro cur
      simp only [List.foldl_cons]
      rw [ih]
      split
      · split
        · exact List.length_set cur i '-'
        · rfl
      · rfl
  exact main (List.range n) cube

theorem expandCube_alldash (n : Nat) (off : List Rep) :
    expandCube n off (List.replicate n '-') = List.replicate n '-' := by
  have main : ∀ (l : List Nat),
      (l.foldl (fun cur i =>
        if cur.getD i '-' ≠ '-' then
          if isValidExpansion off (cur.set i '-') then cur.set i '-' else cur
        else cur) (List.replicate n '-')) = List.replicate n '-' := by
    intro l
    induction l with
    | nil => rfl
    | cons i l ih =>
      simp only [List.foldl_cons]
      rw [if_neg (by simp [getD_replicate_dash])]
      exact ih
  exact main (List.range n)

theorem containsB_dash : ∀ (a b : Rep), a.length = b.length → containsB a b = true →
    dashCount a ≤ dashCount b ∧ (dashCount a = dashCount b → a = b) := by
  intro a
  induction a with
  | nil =>
    intro b hlen _
    have hb : b = [] := List.length_eq_zero.mp hlen.symm
    subst hb
    exact ⟨le_refl _, fun _ => rfl⟩
  | cons c1 r1 ih =>
    intro b hlen hc
    cases b with
    | nil => simp at hlen
    | cons c2 r2 =>
      have hlen' : r1.length = r2.length := by simpa using hlen
      have hsplit : containsB r1 r2 = true ∧ ¬(c1 ≠ '-' ∧ c2 ≠ '-' ∧ c1 ≠ c2) ∧
          ¬(c1 = '-' ∧ c2 ≠ '-') := by
        by_cases h1 : c1 ≠ '-' ∧ c2 ≠ '-' ∧ c1 ≠ c2
        · simp [containsB, h1] at hc
        · by_cases h2 : c1 = '-' ∧ c2 ≠ '-'
          · simp [containsB, h1, h2] at hc
          · exact ⟨by simpa [containsB, h1, h2] using hc, h1, h2⟩
      rcases hsplit with ⟨hrec, hnd, hdd⟩
      have IH := ih r2 hlen' hrec
      by_cases hc1 : c1 = '-'
      · have hc2 : c2 = '-' := by
          by_contra hc2
          exact hdd ⟨hc1, hc2⟩
        subst hc1
        subst hc2
        constructor
        · simp only [dashCount, List.count_cons, if_pos rfl] at *
          simp
          omega
        · intro heq
          simp only [dashCount, List.count_cons] at heq
          simp at heq
          rw [IH.2 (by simpa [dashCount] using heq)]
      · by_cases hc2 : c2 = '-'
        · subst hc2
          have IH1 := IH.1
          simp only [dashCount] at IH1
          constructor
          · simp only [dashCount, List.count_cons]
            have hx1 : (c1 == '-') = false := by simpa using hc1
            simp [hx1]
            omega
          · intro heq
            simp only [dashCount, List.count_cons] at heq
            have hx1 : (c1 == '-') = false := by simpa using hc1
            simp [hx1] at heq
            omega
        · have heq12 : c1 = c2 := by
            by_contra hne
            exact hnd ⟨hc1, hc2, hne⟩
          subst heq12
          constructor
          · simp only [dashCount, List.count_cons]
            have := IH.1
            simp only [dashCount] at this
            omega
          · intro heq
            simp only [dashCount, List.count_cons] at heq
            have heq' : r1.count '-' = r2.count '-' := by omega
            rw [IH.2 (by simpa [dashCount] using heq')]

theorem exists_min_dashCount : ∀ (l : List Rep), l ≠ [] →
    ∃ x ∈ l, ∀ y ∈ l, dashCount x ≤ dashCount y := by
  intro l
  induction l with
  | nil => intro h; exact absurd rfl h
  | cons a l ih =>
    intro _
    cases l with
    | nil =>
      refine ⟨a, by simp, fun y hy => ?_⟩
      rcases List.mem_cons.mp hy with rfl | hy
      · exact le_refl _
      · exact absurd hy (List.not_mem_nil y)
    | cons b t =>
      rcases ih (by simp) with ⟨m, hm, hmin⟩
      by_cases h : dashCount a ≤ dashCount m
      · refine ⟨a, by simp, fun y hy => ?_⟩
        rcases List.mem_cons.mp hy with rfl | hy
        · exact le_refl _
        · exact le_trans h (hmin y hy)
      · refine ⟨m, List.mem_cons_of_mem _ hm, fun y hy => ?_⟩
        rcases List.mem_cons.mp hy with rfl | hy
        · omega
        · exact hmin y hy

theorem mem_irredundant_fold (cover : List Rep) :
    ∀ (l : List Rep) (acc : List Rep) (c : Rep),
    (c ∈ l.foldl (fun acc cube =>
      if isCubeRedundant cube (cover.filter (fun x => decide (x ≠ cube))) then acc
      else addCube acc cube) acc ↔
      c ∈ acc ∨ (c ∈ l ∧
        isCubeRedundant c (cover.filter (fun x => decide (x ≠ c))) = false)) := by
  intro l
  induction l with
  | nil => intro acc c; simp
  | cons cube l ih =>
    intro acc c
    simp only [List.foldl_cons]
    by_cases hred : isCubeRedundant cube (cover.filter (fun x => decide (x ≠ cube))) = true
    · rw [if_pos hred, ih]
      constructor
      · rintro (h | ⟨h1, h2⟩)
        · exact .inl h
        · exact .inr ⟨List.mem_cons_of_mem _ h1, h2⟩
      · rintro (h | ⟨h1, h2⟩)
        · exact .inl h
        · rcases List.mem_cons.mp h1 with rfl | h1
          · rw [hred] at h2
            simp at h2
          · exact .inr ⟨h1, h2⟩
    · rw [if_neg hred, ih, mem_addCube]
      rw [Bool.not_eq_true] at hred
      constructor
      · rintro ((h | rfl) | ⟨h1, h2⟩)
        · exact .inl h
        · exact .inr ⟨List.mem_cons_self _ _, hred⟩
        · exact .inr ⟨List.mem_cons_of_mem _ h1, h2⟩
      · rintro (h | ⟨h1, h2⟩)
        · exact .inl (.inl h)
        · rcases List.mem_cons.mp h1 with rfl | h1
          · exact .inl (.inr rfl)
          · exact .inr ⟨h1, h2⟩

theorem irredundantCover_mem_iff (cover : List Rep) (c : Rep) :
    c ∈ irredundantCover cover ↔
      c ∈ cover ∧
        isCubeRedundant c (cover.filter (fun x => decide (x ≠ c))) = false := by
  have heq : irredundantCover cover = cover.foldl (fun acc cube =>
      if isCubeRedundant cube (cover.filter (fun x => decide (x ≠ cube))) then acc
      else addCube acc cube) [] := rfl
  rw [heq, mem_irredundant_fold cover cover [] c]
  simp

theorem irredundantCover_ne_nil (n : Nat) (cover : List Rep) (hne : cover ≠ [])
    (hlen : ∀ c ∈ cover, c.length = n) : irredundantCover cover ≠ [] := by
  rcases exists_min_dashCount cover hne with ⟨x, hx, hmin⟩
  have hcheck : isCubeRedundant x (cover.filter (fun y => decide (y ≠ x))) = false := by
    rw [Bool.eq_false_iff]
    intro h
    unfold isCubeRedundant at h
    rw [List.any_eq_true] at h
    rcases h with ⟨o, ho, hco⟩
    have ho' := List.mem_filter.mp ho
    have hone : o ≠ x := by simpa using ho'.2
    have hdash := containsB_dash o x (by rw [hlen o ho'.1, hlen x hx]) hco
    have hmo := hmin o ho'.1
    exact hone (hdash.2 (by omega))
  intro hnil
  have hxmem : x ∈ irredundantCover cover :=
    (irredundantCover_mem_iff cover x).mpr ⟨hx, hcheck⟩
  rw [hnil] at hxmem
  exact absurd hxmem (List.not_mem_nil x)

theorem literalCountR_toBin (n m : Nat) : literalCountR (toBin n m) = n := by
  unfold literalCountR
  have h : List.countP (fun c => decide (c ≠ '-')) (toBin n m) = (toBin n m).length :=
    List.countP_eq_length.mpr (fun a ha => by
      simp only [decide_eq_true_eq]
      intro hh
      subst hh
      exact dash_not_mem_toBin n m ha)
  rw [h, length_toBin]

theorem literalCountR_replicate_dash (n : Nat) :
    literalCountR (List.replicate n '-') = 0 := by
  unfold literalCountR
  rw [List.countP_eq_zero]
  intro a ha
  have : a = '-' := List.eq_of_mem_replicate ha
  simp [this]

theorem coverCost_pos (cover : List Rep) (c : Rep) (hc : c ∈ cover)
    (hpos : 0 < literalCountR c) : 0 < coverCost cover := by
  unfold coverCost
  have hle := List.single_le_sum (l := cover.map literalCountR)
    (fun x _ => Nat.zero_le x) (literalCountR c) (List.mem_map.mpr ⟨c, hc, rfl⟩)
  omega

theorem irredundantCover_singleton (x : Rep) : irredundantCover [x] = [x] := by
  have heq : irredundantCover [x] =
      if isCubeRedundant x ([x].filter (fun y => decide (y ≠ x))) then ([] : List Rep)
      else addCube [] x := rfl
  rw [heq]
  have hfil : ([x].filter (fun y => decide (y ≠ x))) = [] := by simp
  rw [hfil]
  rw [if_neg (by simp [isCubeRedundant])]
  simp [addCube]

theorem toExpressionR_alldash (vars : List String) (n : Nat) :
    toExpressionR vars (List.replicate n '-') = "1" := by
  unfold toExpressionR
  have hfun : (fun (acc : List String) i =>
      let c := (List.replicate n '-').getD i '-'
      if c = '1' then acc ++ [vars.getD i ""]
      else if c = '0' then acc ++ [vars.getD i "" ++ "\x27"]
      else acc) = fun acc _ => acc := by
    funext acc i
    simp only [getD_replicate_dash]
    rw [if_neg (by decide), if_neg (by decide)]
  rw [hfun]
  have main : ∀ (l : List Nat) (acc : List String),
      l.foldl (fun acc _ => acc) acc = acc := by
    intro l
    induction l with
    | nil => intro acc; rfl
    | cons i l ih =>
      intro acc
      rw [List.foldl_cons]
      exact ih acc
  rw [main]
  rfl

theorem coverToExpression_alldash (vars : List String) (n : Nat) :
    coverToExpression vars [List.replicate n '-'] = "1" := by
  unfold coverToExpression
  rw [if_neg (by simp)]
  simp [toExpressionR_alldash]

theorem coverCost_alldash (n : Nat) : coverCost [List.replicate n '-'] = 0 := by
  simp [coverCost, literalCountR_replicate_dash]

theorem espressoLoop_fixed (st : EState) (fuel iter : Nat) :
    espressoLoop st fuel iter [List.replicate st.numVariables '-'] =
      ([List.replicate st.numVariables '-'], iter) := by
  cases fuel with
  | zero => rfl
  | succ k =>
    have hexp : expandCover st.numVariables st.offSet
        [List.replicate st.numVariables '-'] = [List.replicate st.numVariables '-'] := by
      unfold expandCover
      simp only [List.foldl_cons, List.foldl_nil,
        expandCube_alldash st.numVariables st.offSet]
      simp [addCube]
    have hirr : irredundantCover [List.replicate st.numVariables '-'] =
        [List.replicate st.numVariables '-'] := irredundantCover_singleton _
    have hred : reduceCover st.numVariables [List.replicate st.numVariables '-'] =
        [List.replicate st.numVariables '-'] :=
      reduceCover_eq st.numVariables _ (by simp) (by simp)
    simp only [espressoLoop, hexp, hirr, hred, coverCost_alldash]
    rw [if_pos (le_refl 0)]

/-- C2: for every n ≥ 1, every non-empty list of in-range minterms, any
don't-care list, and any max_iterations ≥ 1 (in particular the default 20),
EspressoAlgorithm.minimize returns the cover consisting of the single
all-DontCare cube, simplified_expression "1", cost 0 and iteration count 1:
because _maintains_coverage returns True unconditionally, the first REDUCE
pass relaxes every defined literal of every cube, collapsing the cover to
the tautology cube, after which the cost cannot improve further. -/
theorem espresso_minimize_collapses_to_tautology
    (n : Nat) (mts dcs : List Nat) (maxIter : Nat)
    (hn : 1 ≤ n) (hne : mts ≠ []) (hval : ∀ m ∈ mts, m < 2 ^ n) (hiter : 1 ≤ maxIter) :
    espressoMinimize n mts dcs maxIter =
      ⟨[List.replicate n '-'], "1", 1, 0, 1⟩ := by
  obtain ⟨k, rfl⟩ : ∃ k, maxIter = k + 1 := ⟨maxIter - 1, by omega⟩
  have hnum : (espressoSetFunction n mts dcs).numVariables = n := rfl
  have honset : (espressoSetFunction n mts dcs).onSet =
      mts.foldl (fun acc m => addCube acc (toBin n m)) [] := rfl
  have hon_ne : (espressoSetFunction n mts dcs).onSet ≠ [] := by
    rw [honset]
    exact foldl_addCube_ne_nil (toBin n) mts [] (.inr hne)
  have hon_mem : ∀ c ∈ (espressoSetFunction n mts dcs).onSet, ∃ m ∈ mts, toBin n m = c := by
    intro c hc
    rw [honset] at hc
    rcases (mem_foldl_addCube (toBin n) mts [] c).mp hc with h | h
    · exact absurd h (List.not_mem_nil c)
    · exact h
  have hon_len : ∀ c ∈ (espressoSetFunction n mts dcs).onSet, c.length = n := by
    intro c hc
    rcases hon_mem c hc with ⟨m, _, rfl⟩
    exact length_toBin n m
  rcases List.exists_mem_of_ne_nil _ hon_ne with ⟨c0, hc0⟩
  have hcost0 : 0 < coverCost (espressoSetFunction n mts dcs).onSet := by
    rcases hon_mem c0 hc0 with ⟨m0, _, hm0⟩
    refine coverCost_pos _ c0 hc0 ?_
    rw [← hm0, literalCountR_toBin]
    omega
  have hexp_ne : expandCover n (espressoSetFunction n mts dcs).offSet
      (espressoSetFunction n mts dcs).onSet ≠ [] := by
    unfold expandCover
    exact foldl_addCube_ne_nil _ (espressoSetFunction n mts dcs).onSet [] (.inr hon_ne)
  have hexp_len : ∀ c ∈ expandCover n (espressoSetFunction n mts dcs).offSet
      (espressoSetFunction n mts dcs).onSet, c.length = n := by
    intro c hc
    unfold expandCover at hc
    rcases (mem_foldl_addCube (expandCube n (espressoSetFunction n mts dcs).offSet)
      (espressoSetFunction n mts dcs).onSet [] c).mp hc with h | ⟨x, hx, hxe⟩
    · exact absurd h (List.not_mem_nil c)
    · rw [← hxe, expandCube_length]
      exact hon_len x hx
  have hirr_ne : irredundantCover (expandCover n (espressoSetFunction n mts dcs).offSet
      (espressoSetFunction n mts dcs).onSet) ≠ [] :=
    irredundantCover_ne_nil n _ hexp_ne hexp_len
  have hirr_len : ∀ c ∈ irredundantCover (expandCover n
      (espressoSetFunction n mts dcs).offSet (espressoSetFunction n mts dcs).onSet),
      c.length = n := by
    intro c hc
    exact hexp_len c ((irredundantCover_mem_iff _ c).mp hc).1
  have hred : reduceCover n (irredundantCover (expandCover n
      (espressoSetFunction n mts dcs).offSet (espressoSetFunction n mts dcs).onSet)) =
      [List.replicate n '-'] := reduceCover_eq n _ hirr_ne hirr_len
  have hloop : espressoLoop (espressoSetFunction n mts dcs) (k + 1) 0
      (espressoSetFunction n mts dcs).onSet = ([List.replicate n '-'], 1) := by
    simp only [espressoLoop, hnum, hred, coverCost_alldash]
    rw [if_neg (by omega)]
    have hfix := espressoLoop_fixed (espressoSetFunction n mts dcs) k 1
    rw [hnum] at hfix
    exact hfix
  have hbranch : espressoMinimize n mts dcs (k + 1) =
      ⟨(espressoLoop (espressoSetFunction n mts dcs) (k + 1) 0
          (espressoSetFunction n mts dcs).onSet).1,
       coverToExpression (engineVariables n)
         (espressoLoop (espressoSetFunction n mts dcs) (k + 1) 0
           (espressoSetFunction n mts dcs).onSet).1,
       (espressoLoop (espressoSetFunction n mts dcs) (k + 1) 0
         (espressoSetFunction n mts dcs).onSet).2,
       coverCost (espressoLoop (espressoSetFunction n mts dcs) (k + 1) 0
         (espressoSetFunction n mts dcs).onSet).1,
       (espressoLoop (espressoSetFunction n mts dcs) (k + 1) 0
         (espressoSetFunction n mts dcs).onSet).1.length⟩ := by
    simp only [espressoMinimize]
    rw [if_neg hon_ne]
  rw [hbranch, hloop]
  simp only [coverToExpression_alldash, coverCost_alldash]
  rfl

/-- Witness for the C2 theorem at a concrete input (default max_iterations). -/
theorem espresso_minimize_collapses_to_tautology_witness :
    espressoMinimize 2 [1, 2] [] 20 = ⟨[List.replicate 2 '-'], "1", 1, 0, 1⟩ :=
  espresso_minimize_collapses_to_tautology 2 [1, 2] [] 20 (by decide) (by decide)
    (by decide) (by decide)

theorem diffCount_zero_eq : ∀ (a b : Rep), a.length = b.length →
    diffCount a b = 0 → a = b := by
  intro a
  induction a with
  | nil =>
    intro b hlen _
    exact (List.length_eq_zero.mp hlen.symm).symm
  | cons c1 r1 ih =>
    intro b hlen hd
    cases b with
    | nil => simp at hlen
    | cons c2 r2 =>
      have hlen' : r1.length = r2.length := by simpa using hlen
      have hhead : c1 = c2 := by
        by_contra hne
        simp [diffCount, hne] at hd
      have htail : diffCount r1 r2 = 0 := by
        simpa [diffCount, hhead] using hd
      rw [hhead, ih r2 hlen' htail]

theorem canCombineWith_parts {a b : Term} (h : canCombineWith a b = true) :
    a.rep.length = b.rep.length ∧ noDashDiff a.rep b.rep = true ∧
      diffCount a.rep b.rep = 1 := by
  unfold canCombineWith at h
  simp only [Bool.and_eq_true, beq_iff_eq, Nat.beq_eq_true_eq] at h
  exact ⟨h.1.1, h.1.2, h.2⟩

theorem noDashDiff_aligned : ∀ (a b : Rep), noDashDiff a b = true →
    alignedB a b = true ∨ a.length ≠ b.length := by
  intro a
  induction a with
  | nil =>
    intro b _
    cases b with
    | nil => exact .inl rfl
    | cons c r => exact .inr (by simp)
  | cons c1 r1 ih =>
    intro b hnd
    cases b with
    | nil => exact .inr (by simp)
    | cons c2 r2 =>
      have hnd' : noDashDiff r1 r2 = true := by
        simp only [noDashDiff, Bool.and_eq_true] at hnd
        exact hnd.2
      have hh : (c1 == c2 || (c1 != '-' && c2 != '-')) = true := by
        simp only [noDashDiff, Bool.and_eq_true] at hnd
        exact hnd.1
      rcases ih r2 hnd' with hal | hne
      · by_cases hlen : r1.length = r2.length
        · refine .inl ?_
          simp only [alignedB, Bool.and_eq_true, hal, and_true]
          rcases Bool.or_eq_true_iff.mp hh with h | h
          · have : c1 = c2 := by simpa using h
            subst this
            simp
          · simp only [Bool.and_eq_true, bne_iff_ne] at h
            simp [h.1, h.2]
        · exact .inr (by simpa using hlen)
      · exact .inr (by simpa using hne)

theorem noDashDiff_distance : ∀ (a b : Rep), noDashDiff a b = true →
    distanceB a b = diffCount a b := by
  intro a
  induction a with
  | nil => intro b _; cases b <;> rfl
  | cons c1 r1 ih =>
    intro b hnd
    cases b with
    | nil => rfl
    | cons c2 r2 =>
      have hnd' : noDashDiff r1 r2 = true := by
        simp only [noDashDiff, Bool.and_eq_true] at hnd
        exact hnd.2
      have hh : (c1 == c2 || (c1 != '-' && c2 != '-')) = true := by
        simp only [noDashDiff, Bool.and_eq_true] at hnd
        exact hnd.1
      simp only [distanceB, diffCount, ih r2 hnd']
      by_cases heq : c1 = c2
      · simp [heq]
      · rcases Bool.or_eq_true_iff.mp hh with h | h
        · exact absurd (by simpa using h) heq
        · simp only [Bool.and_eq_true, bne_iff_ne] at h
          simp [heq, h.1, h.2]

theorem ones_of_combine : ∀ (a b : Rep), a.length = b.length → wfRep a → wfRep b →
    noDashDiff a b = true → diffCount a b = 1 →
    (onesCount b = onesCount a + 1 ∨ onesCount a = onesCount b + 1) := by
  intro a
  induction a with
  | nil =>
    intro b hlen _ _ _ hd
    have hb : b = [] := List.length_eq_zero.mp hlen.symm
    subst hb
    simp [diffCount] at hd
  | cons c1 r1 ih =>
    intro b hlen ha hb hnd hd
    cases b with
    | nil => simp at hlen
    | cons c2 r2 =>
      have hlen' : r1.length = r2.length := by simpa using hlen
      have ha' : wfRep r1 := fun c hc => ha c (List.mem_cons_of_mem _ hc)
      have hb' : wfRep r2 := fun c hc => hb c (List.mem_cons_of_mem _ hc)
      have hnd' : noDashDiff r1 r2 = true := by
        simp only [noDashDiff, Bool.and_eq_true] at hnd
        exact hnd.2
      have hh : (c1 == c2 || (c1 != '-' && c2 != '-')) = true := by
        simp only [noDashDiff, Bool.and_eq_true] at hnd
        exact hnd.1
      by_cases heq : c1 = c2
      · have hd' : diffCount r1 r2 = 1 := by simpa [diffCount, heq] using hd
        rcases ih r2 hlen' ha' hb' hnd' hd' with h | h
        · refine .inl ?_
          subst heq
          simp only [onesCount, List.count_cons] at *
          omega
        · refine .inr ?_
          subst heq
          simp only [onesCount, List.count_cons] at *
          omega
      · have hd' : diffCount r1 r2 = 0 := by
          simp only [diffCount, if_neg heq] at hd
          omega
        have hteq : r1 = r2 := diffCount_zero_eq r1 r2 hlen' hd'
        subst hteq
        have hnon : c1 ≠ '-' ∧ c2 ≠ '-' := by
          rcases Bool.or_eq_true_iff.mp hh with h | h
          · exact absurd (by simpa using h) heq
          · simpa using h
        have ha1 := ha c1 (List.mem_cons_self _ _)
        have hb1 := hb c2 (List.mem_cons_self _ _)
        rcases ha1 with rfl | rfl | rfl
        · have hc2 : c2 = '1' := by
            rcases hb1 with rfl | rfl | rfl
            · exact absurd rfl heq
            · rfl
            · exact absurd rfl hnon.2
          subst hc2
          refine .inl ?_
          simp [onesCount, List.count_cons]
        · have hc2 : c2 = '0' := by
            rcases hb1 with rfl | rfl | rfl
            · rfl
            · exact absurd rfl heq
            · exact absurd rfl hnon.2
          subst hc2
          refine .inr ?_
          simp [onesCount, List.count_cons]
        · exact absurd rfl hnon.1

theorem dash_combineRep : ∀ (a b : Rep), a.length = b.length →
    alignedB a b = true → distanceB a b = 1 →
    dashCount (combineRepR a b) = dashCount a + 1 := by
  intro a
  induction a with
  | nil =>
    intro b hlen _ hd
    have hb : b = [] := List.length_eq_zero.mp hlen.symm
    subst hb
    simp [distanceB] at hd
  | cons c1 r1 ih =>
    intro b hlen hal hd
    cases b with
    | nil => simp at hlen
    | cons c2 r2 =>
      have hlen' : r1.length = r2.length := by simpa using hlen
      have hal' : alignedB r1 r2 = true := by
        simp only [alignedB, Bool.and_eq_true] at hal
        exact hal.2
      have halh : (decide (c1 = '-') == decide (c2 = '-')) = true := by
        simp only [alignedB, Bool.and_eq_true] at hal
        exact hal.1
      have hcomb : combineRepR (c1 :: r1) (c2 :: r2) =
          (if c1 = c2 then c1 else '-') :: combineRepR r1 r2 := by
        simp [combineRepR]
      rw [hcomb]
      by_cases heq : c1 = c2
      · have hd' : distanceB r1 r2 = 1 := by
          simpa [distanceB, heq] using hd
        rw [if_pos heq]
        simp only [dashCount, List.count_cons] at *
        rw [ih r2 hlen' hal' hd']
        omega
      · have hz1 : c1 ≠ '-' := by
          intro hz
          subst hz
          have h2 : c2 = '-' := by simpa using halh
          exact heq h2.symm
        have hz2 : c2 ≠ '-' := by
          intro hz
          subst hz
          simp [hz1] at halh
        have hd' : distanceB r1 r2 = 0 := by
          simp only [distanceB] at hd
          rw [if_pos ⟨hz1, hz2, heq⟩] at hd
          omega
        have hteq : r1 = r2 := distanceB_zero_eq r1 r2 hlen' hal' hd'
        subst hteq
        rw [if_neg heq, combineRepR_self]
        have hx1 : (c1 == '-') = false := by simpa using hz1
        simp [dashCount, List.count_cons, hx1]

theorem wf_combineRepR : ∀ (a b : Rep), wfRep a → wfRep (combineRepR a b) := by
  intro a
  induction a with
  | nil =>
    intro b _
    intro c hc
    cases b <;> simp [combineRepR] at hc
  | cons c1 r1 ih =>
    intro b ha
    cases b with
    | nil => intro c hc; simp [combineRepR] at hc
    | cons c2 r2 =>
      have hcomb : combineRepR (c1 :: r1) (c2 :: r2) =
          (if c1 = c2 then c1 else '-') :: combineRepR r1 r2 := by
        simp [combineRepR]
      rw [hcomb]
      intro c hc
      rcases List.mem_cons.mp hc with rfl | hc
      · by_cases heq : c1 = c2
        · rw [if_pos heq]
          exact ha c1 (List.mem_cons_self _ _)
        · rw [if_neg heq]
          simp
      · exact ih r2 (fun d hd => ha d (List.mem_cons_of_mem _ hd)) c hc

theorem foldl_pres_mem {α β : Type} (P : β → Prop) (g : β → α → β) :
    ∀ (l : List α) (acc : β), (∀ acc x, x ∈ l → P acc → P (g acc x)) → P acc →
    P (l.foldl g acc) := by
  intro l
  induction l with
  | nil => intro acc _ h; exact h
  | cons x l ih =>
    intro acc hpres h
    rw [List.foldl_cons]
    exact ih (g acc x) (fun a y hy ha => hpres a y (List.mem_cons_of_mem _ hy) ha)
      (hpres acc x (List.mem_cons_self _ _) h)

theorem foldl_intro_mem {α β : Type} (P : β → Prop) (g : β → α → β) (x : α) :
    ∀ (l : List α) (acc : β), (∀ acc y, y ∈ l → P acc → P (g acc y)) →
    (∀ acc, P (g acc x)) → x ∈ l → P (l.foldl g acc) := by
  intro l
  induction l with
  | nil => intro acc _ _ hx; exact absurd hx (List.not_mem_nil x)
  | cons y l ih =>
    intro acc hpres hintro hx
    rw [List.foldl_cons]
    rcases List.mem_cons.mp hx with rfl | hx
    · exact foldl_pres_mem P g l (g acc x)
        (fun a z hz ha => hpres a z (List.mem_cons_of_mem _ hz) ha) (hintro acc)
    · exact ih (g acc y) (fun a z hz ha => hpres a z (List.mem_cons_of_mem _ hz) ha)
        hintro hx

theorem foldl_max_le : ∀ (l : List Term) (acc : Nat),
    acc ≤ l.foldl (fun a t => max a (onesCount t.rep)) acc := by
  intro l
  induction l with
  | nil => intro acc; exact le_refl acc
  | cons x l ih =>
    intro acc
    rw [List.foldl_cons]
    exact le_trans (le_max_left _ _) (ih _)

theorem mem_le_foldl_max : ∀ (l : List Term) (acc : Nat) (t : Term), t ∈ l →
    onesCount t.rep ≤ l.foldl (fun a t => max a (onesCount t.rep)) acc := by
  intro l
  induction l with
  | nil => intro acc t ht; exact absurd ht (List.not_mem_nil t)
  | cons x l ih =>
    intro acc t ht
    rw [List.foldl_cons]
    rcases List.mem_cons.mp ht with rfl | ht
    · exact le_trans (le_max_right _ _) (foldl_max_le l _)
    · exact ih _ t ht

theorem addTermNew_rep (acc : List Term) (t : Term) {r : Rep} :
    (∃ s ∈ addTermNew acc t, s.rep = r) ↔ (∃ s ∈ acc, s.rep = r) ∨ t.rep = r := by
  unfold addTermNew
  split
  · rename_i hany
    constructor
    · exact fun h => .inl h
    · rintro (h | rfl)
      · exact h
      · rw [List.any_eq_true] at hany
        rcases hany with ⟨s, hs, hsr⟩
        exact ⟨s, hs, by simpa using hsr⟩
  · constructor
    · rintro ⟨s, hs, rfl⟩
      rcases List.mem_append.mp hs with h | h
      · exact .inl ⟨s, h, rfl⟩
      · rcases List.mem_cons.mp h with rfl | h
        · exact .inr rfl
        · exact absurd h (List.not_mem_nil s)
    · rintro (⟨s, hs, rfl⟩ | rfl)
      · exact ⟨s, List.mem_append.mpr (.inl hs), rfl⟩
      · exact ⟨t, List.mem_append.mpr (.inr (List.mem_cons_self _ _)), rfl⟩

theorem addTermNew_elim (acc : List Term) (t s : Term) (hs : s ∈ addTermNew acc t) :
    s ∈ acc ∨ s = t := by
  unfold addTermNew at hs
  split at hs
  · exact .inl hs
  · rcases List.mem_append.mp hs with h | h
    · exact .inl h
    · rcases List.mem_cons.mp h with rfl | h
      · exact .inr rfl
      · exact absurd h (List.not_mem_nil s)

theorem combineStep_elim (current : List Term) :
    ∀ c ∈ combineStep current, ∃ t1 ∈ current, ∃ t2 ∈ current,
      canCombineWith t1 t2 = true ∧ c = combineWith t1 t2 := by
  have hcs : combineStep current =
      (List.range (current.foldl (fun a t => max a (onesCount t.rep)) 0 + 1)).foldl
        (fun acc k =>
          (current.filter (fun t => onesCount t.rep == k)).foldl (fun acc t1 =>
            (current.filter (fun t => onesCount t.rep == k + 1)).foldl (fun acc t2 =>
              if canCombineWith t1 t2 then addTermNew acc (combineWith t1 t2) else acc)
              acc) acc) [] := rfl
  rw [hcs]
  refine foldl_pres_mem (fun acc => ∀ c ∈ acc, ∃ t1 ∈ current, ∃ t2 ∈ current,
    canCombineWith t1 t2 = true ∧ c = combineWith t1 t2) _ _ [] ?_ (by simp)
  intro acc k _ hacc
  refine foldl_pres_mem (fun acc => ∀ c ∈ acc, ∃ t1 ∈ current, ∃ t2 ∈ current,
    canCombineWith t1 t2 = true ∧ c = combineWith t1 t2) _ _ acc ?_ hacc
  intro acc2 t1 ht1 hacc2
  refine foldl_pres_mem (fun acc => ∀ c ∈ acc, ∃ t1 ∈ current, ∃ t2 ∈ current,
    canCombineWith t1 t2 = true ∧ c = combineWith t1 t2) _ _ acc2 ?_ hacc2
  intro acc3 t2 ht2 hacc3
  by_cases hc : canCombineWith t1 t2 = true
  · rw [if_pos hc]
    intro c hcmem
    rcases addTermNew_elim acc3 (combineWith t1 t2) c hcmem with h | rfl
    · exact hacc3 c h
    · exact ⟨t1, (List.mem_filter.mp ht1).1, t2, (List.mem_filter.mp ht2).1, hc, rfl⟩
  · rw [if_neg (by simpa using hc)]
    exact hacc3

theorem mem_combineStep (current : List Term) (t1 t2 : Term)
    (h1 : t1 ∈ current) (h2 : t2 ∈ current) (hc : canCombineWith t1 t2 = true)
    (hones : onesCount t2.rep = onesCount t1.rep + 1) :
    ∃ c ∈ combineStep current, c.rep = combineRepR t1.rep t2.rep := by
  have hcs : combineStep current =
      (List.range (current.foldl (fun a t => max a (onesCount t.rep)) 0 + 1)).foldl
        (fun acc k =>
          (current.filter (fun t => onesCount t.rep == k)).foldl (fun acc t1 =>
            (current.filter (fun t => onesCount t.rep == k + 1)).foldl (fun acc t2 =>
              if canCombineWith t1 t2 then addTermNew acc (combineWith t1 t2) else acc)
              acc) acc) [] := rfl
  rw [hcs]
  have hinnerpres : ∀ (t1' : Term) (l : List Term) (acc : List Term),
      (∃ s ∈ acc, s.rep = combineRepR t1.rep t2.rep) →
      (∃ s ∈ l.foldl (fun acc t2' =>
        if canCombineWith t1' t2' then addTermNew acc (combineWith t1' t2') else acc)
        acc, s.rep = combineRepR t1.rep t2.rep) := by
    intro t1' l acc hacc
    refine foldl_pres_mem (fun acc : List Term => ∃ s ∈ acc, s.rep = combineRepR t1.rep t2.rep)
      _ l acc ?_ hacc
    intro a t2' _ ha
    by_cases hcc : canCombineWith t1' t2' = true
    · rw [if_pos hcc]
      exact (addTermNew_rep a (combineWith t1' t2')).mpr (.inl ha)
    · rw [if_neg (by simpa using hcc)]
      exact ha
  have hmidpres : ∀ (k : Nat) (l : List Term) (acc : List Term),
      (∃ s ∈ acc, s.rep = combineRepR t1.rep t2.rep) →
      (∃ s ∈ l.foldl (fun acc t1' =>
        (current.filter (fun t => onesCount t.rep == k + 1)).foldl (fun acc t2' =>
          if canCombineWith t1' t2' then addTermNew acc (combineWith t1' t2') else acc)
          acc) acc, s.rep = combineRepR t1.rep t2.rep) := by
    intro k l acc hacc
    refine foldl_pres_mem (fun acc : List Term => ∃ s ∈ acc, s.rep = combineRepR t1.rep t2.rep)
      _ l acc ?_ hacc
    intro a t1' _ ha
    exact hinnerpres t1' _ a ha
  -- introduce at k0 := onesCount t1.rep
  refine foldl_intro_mem (fun acc : List Term => ∃ s ∈ acc, s.rep = combineRepR t1.rep t2.rep)
    _ (onesCount t1.rep) _ [] ?_ ?_ ?_
  · intro acc k _ hacc
    exact hmidpres k _ acc hacc
  · intro acc
    refine foldl_intro_mem (fun acc : List Term => ∃ s ∈ acc, s.rep = combineRepR t1.rep t2.rep)
      _ t1 _ acc ?_ ?_ ?_
    · intro a t1' _ ha
      exact hinnerpres t1' _ a ha
    · intro a
      refine foldl_intro_mem (fun acc : List Term => ∃ s ∈ acc, s.rep = combineRepR t1.rep t2.rep)
        _ t2 _ a ?_ ?_ ?_
      · intro b t2' _ hb
        by_cases hcc : canCombineWith t1 t2' = true
        · rw [if_pos hcc]
          exact (addTermNew_rep b (combineWith t1 t2')).mpr (.inl hb)
        · rw [if_neg (by simpa using hcc)]
          exact hb
      · intro b
        rw [if_pos hc]
        exact (addTermNew_rep b (combineWith t1 t2)).mpr (.inr rfl)
      · exact List.mem_filter.mpr ⟨h2, by simp [hones]⟩
    · exact List.mem_filter.mpr ⟨h1, by simp⟩
  · rw [List.mem_range]
    have := mem_le_foldl_max current 0 t1 h1
    omega

theorem beq_char_comm (c1 c2 : Char) : (c1 == c2) = (c2 == c1) := by
  by_cases h : c1 = c2
  · subst h
    rfl
  · have h' : c2 ≠ c1 := fun hh => h hh.symm
    simp [h, h']

theorem noDashDiff_symm : ∀ (a b : Rep), noDashDiff a b = noDashDiff b a := by
  intro a
  induction a with
  | nil => intro b; cases b <;> rfl
  | cons c1 r1 ih =>
    intro b
    cases b with
    | nil => rfl
    | cons c2 r2 =>
      show ((c1 == c2 || (c1 != '-' && c2 != '-')) && noDashDiff r1 r2) =
        ((c2 == c1 || (c2 != '-' && c1 != '-')) && noDashDiff r2 r1)
      rw [ih r2, beq_char_comm c1 c2, Bool.and_comm (c1 != '-') (c2 != '-')]

theorem diffCount_symm : ∀ (a b : Rep), diffCount a b = diffCount b a := by
  intro a
  induction a with
  | nil => intro b; cases b <;> rfl
  | cons c1 r1 ih =>
    intro b
    cases b with
    | nil => rfl
    | cons c2 r2 =>
      show (if c1 = c2 then 0 else 1) + diffCount r1 r2 =
        (if c2 = c1 then 0 else 1) + diffCount r2 r1
      rw [ih r2]
      by_cases h : c1 = c2
      · rw [if_pos h, if_pos h.symm]
      · rw [if_neg h, if_neg (fun hh => h hh.symm)]

theorem canCombineWith_symm {a b : Term} (h : canCombineWith a b = true) :
    canCombineWith b a = true := by
  rcases canCombineWith_parts h with ⟨hlen, hnd, hdf⟩
  unfold canCombineWith
  simp only [Bool.and_eq_true, beq_iff_eq, Nat.beq_eq_true_eq]
  exact ⟨⟨hlen.symm, by rw [← noDashDiff_symm]; exact hnd⟩,
    by rw [← diffCount_symm]; exact hdf⟩

theorem qmLoop_master (n : Nat) (onDc : Finset Nat) :
    ∀ (fuel g : Nat) (pis current : List Term),
    (n + 1) - g ≤ fuel →
    (∀ t ∈ current, termInv n onDc t ∧ dashCount t.rep = g) →
    (∀ t ∈ pis, termInv n onDc t) →
    (∀ t ∈ qmLoop fuel pis current, termInv n onDc t) ∧
    (∀ m : Nat, ((∃ t ∈ current, m ∈ t.minterms) ∨ (∃ t ∈ pis, m ∈ t.minterms)) →
      ∃ t ∈ qmLoop fuel pis current, m ∈ t.minterms) := by
  intro fuel
  induction fuel with
  | zero =>
    intro g pis current hfuel hcur hpis
    have hempty : current = [] := by
      cases current with
      | nil => rfl
      | cons t rest =>
        have h1 := hcur t (List.mem_cons_self _ _)
        have h2 : dashCount t.rep ≤ t.rep.length := List.count_le_length _ _
        rw [h1.1.1, h1.2] at h2
        omega
    subst hempty
    refine ⟨fun t ht => hpis t ht, fun m hm => ?_⟩
    rcases hm with ⟨t, ht, _⟩ | h
    · exact absurd ht (List.not_mem_nil t)
    · exact h
  | succ fuel ih =>
    intro g pis current hfuel hcur hpis
    by_cases hemp : current = []
    · subst hemp
      rw [show qmLoop (fuel + 1) pis [] = pis from by simp [qmLoop]]
      refine ⟨hpis, fun m hm => ?_⟩
      rcases hm with ⟨t, ht, _⟩ | h
      · exact absurd ht (List.not_mem_nil t)
      · exact h
    · have hstep : qmLoop (fuel + 1) pis current =
          qmLoop fuel (pis ++ current.filter (fun t => !usedB current t))
            (combineStep current) := by
        simp [qmLoop, hemp]
      have hnext : ∀ c ∈ combineStep current, termInv n onDc c ∧
          dashCount c.rep = g + 1 := by
        intro c hc
        rcases combineStep_elim current c hc with ⟨t1, ht1, t2, ht2, hcc, rfl⟩
        rcases hcur t1 ht1 with ⟨⟨hlen1, hwf1, hsem1, hsub1⟩, hdash1⟩
        rcases hcur t2 ht2 with ⟨⟨hlen2, hwf2, hsem2, hsub2⟩, hdash2⟩
        rcases canCombineWith_parts hcc with ⟨hleq, hnd, hdf⟩
        have hal : alignedB t1.rep t2.rep = true := by
          rcases noDashDiff_aligned t1.rep t2.rep hnd with h | h
          · exact h
          · exact absurd hleq h
        have hdist : distanceB t1.rep t2.rep = 1 := by
          rw [noDashDiff_distance t1.rep t2.rep hnd, hdf]
        have hclen : (combineRepR t1.rep t2.rep).length = n := by
          rw [length_combineRepR t1.rep t2.rep hleq, hlen1]
        refine ⟨⟨hclen, wf_combineRepR t1.rep t2.rep hwf1, ?_, ?_⟩, ?_⟩
        · intro m
          show m ∈ t1.minterms ∪ t2.minterms ↔ _
          rw [Finset.mem_union, hsem1 m, hsem2 m]
          exact (semL_combineRep_union t1.rep t2.rep hleq hwf1 hwf2 hal hdist m).symm
        · intro m hm
          rcases Finset.mem_union.mp hm with h | h
          · exact hsub1 m h
          · exact hsub2 m h
        · show dashCount (combineRepR t1.rep t2.rep) = g + 1
          rw [dash_combineRep t1.rep t2.rep hleq hal hdist, hdash1]
      have hnewpis : ∀ t ∈ pis ++ current.filter (fun t => !usedB current t),
          termInv n onDc t := by
        intro t ht
        rcases List.mem_append.mp ht with h | h
        · exact hpis t h
        · exact (hcur t (List.mem_filter.mp h).1).1
      have hfuel' : (n + 1) - (g + 1) ≤ fuel := by omega
      have IH := ih (g + 1) (pis ++ current.filter (fun t => !usedB current t))
        (combineStep current) hfuel' hnext hnewpis
      rw [hstep]
      refine ⟨IH.1, ?_⟩
      intro m hm
      apply IH.2
      rcases hm with ⟨t, ht, hmt⟩ | ⟨t, ht, hmt⟩
      · by_cases hused : usedB current t = true
        · refine .inl ?_
          unfold usedB at hused
          rw [List.any_eq_true] at hused
          rcases hused with ⟨t2, ht2, hcc⟩
          rcases hcur t ht with ⟨⟨hlen1, hwf1, hsem1, _⟩, _⟩
          rcases hcur t2 ht2 with ⟨⟨hlen2, hwf2, hsem2, _⟩, _⟩
          rcases canCombineWith_parts hcc with ⟨hleq, hnd, hdf⟩
          rcases ones_of_combine t.rep t2.rep hleq hwf1 hwf2 hnd hdf with ho | ho
          · rcases mem_combineStep current t t2 ht ht2 hcc ho with ⟨c, hcmem, hcrep⟩
            refine ⟨c, hcmem, ?_⟩
            rcases hnext c hcmem with ⟨⟨_, _, hsemc, _⟩, _⟩
            rw [hsemc, hcrep]
            exact semL_sub_combineRep_left t.rep t2.rep hleq m ((hsem1 m).mp hmt)
          · have hcc' : canCombineWith t2 t = true := canCombineWith_symm hcc
            rcases mem_combineStep current t2 t ht2 ht hcc' ho with ⟨c, hcmem, hcrep⟩
            refine ⟨c, hcmem, ?_⟩
            rcases hnext c hcmem with ⟨⟨_, _, hsemc, _⟩, _⟩
            rw [hsemc, hcrep]
            exact semL_sub_combineRep_right t2.rep t.rep hleq.symm m ((hsem1 m).mp hmt)
        · refine .inr ⟨t, List.mem_append.mpr (.inr (List.mem_filter.mpr
            ⟨ht, by rw [Bool.not_eq_true] at hused; simp [hused]⟩)), hmt⟩
      · exact .inr ⟨t, List.mem_append.mpr (.inl ht), hmt⟩

theorem findPrimeImplicants_inv (n : Nat) (onL dc : List Nat)
    (hval : ∀ m ∈ onL ++ dc, m < 2 ^ n) :
    (∀ t ∈ findPrimeImplicants n onL dc, termInv n (onL ++ dc).toFinset t) ∧
    (∀ m ∈ onL ++ dc, ∃ t ∈ findPrimeImplicants n onL dc, m ∈ t.minterms) := by
  have hinit : ∀ t ∈ initialTerms n onL dc,
      termInv n (onL ++ dc).toFinset t ∧ dashCount t.rep = 0 := by
    intro t ht
    unfold initialTerms at ht
    rcases List.mem_map.mp ht with ⟨m, hm, rfl⟩
    have hm' : m ∈ onL ++ dc := (mem_sortDedup m _).mp hm
    have hmlt : m < 2 ^ n := hval m hm'
    refine ⟨⟨length_toBin n m, wf_toBin n m, ?_, ?_⟩, ?_⟩
    · intro m'
      show m' ∈ ({m} : Finset Nat) ↔ _
      rw [Finset.mem_singleton, semL_toBin n m hmlt]
      simp
    · intro m' hm'2
      have : m' = m := Finset.mem_singleton.mp hm'2
      subst this
      exact List.mem_toFinset.mpr hm'
    · show dashCount (toBin n m) = 0
      unfold dashCount
      rw [List.count_eq_zero]
      exact dash_not_mem_toBin n m
  have hmaster := qmLoop_master n (onL ++ dc).toFinset (n + 2) 0 []
    (initialTerms n onL dc) (by omega) hinit (by simp)
  refine ⟨hmaster.1, fun m hm => ?_⟩
  apply hmaster.2
  refine .inl ⟨⟨{m}, toBin n m⟩, ?_, Finset.mem_singleton_self m⟩
  unfold initialTerms
  exact List.mem_map.mpr ⟨m, (mem_sortDedup m _).mpr hm, rfl⟩

theorem coverageTable_elim (onF : Finset Nat) (pis : List Term) :
    ∀ pc ∈ coverageTable onF pis,
      pc.1 ∈ pis ∧ pc.2 = pc.1.minterms ∩ onF ∧ pc.2 ≠ ∅ := by
  unfold coverageTable
  refine foldl_pres_mem (fun acc : List (Term × Finset Nat) => ∀ pc ∈ acc,
    pc.1 ∈ pis ∧ pc.2 = pc.1.minterms ∩ onF ∧ pc.2 ≠ ∅) _ pis [] ?_ (by simp)
  intro acc p hp hacc
  dsimp only
  split
  · exact hacc
  · rename_i hne
    intro pc hpc
    rcases List.mem_append.mp hpc with h | h
    · exact hacc pc h
    · rcases List.mem_cons.mp h with rfl | h
      · exact ⟨hp, rfl, hne⟩
      · exact absurd h (List.not_mem_nil pc)

theorem coverageTable_intro (onF : Finset Nat) (pis : List Term) (p : Term)
    (hp : p ∈ pis) (hne : p.minterms ∩ onF ≠ ∅) :
    (p, p.minterms ∩ onF) ∈ coverageTable onF pis := by
  unfold coverageTable
  refine foldl_intro_mem
    (fun acc : List (Term × Finset Nat) => (p, p.minterms ∩ onF) ∈ acc) _ p pis [] ?_ ?_ hp
  · intro acc q _ hacc
    dsimp only
    split
    · exact hacc
    · exact List.mem_append.mpr (.inl hacc)
  · intro acc
    dsimp only
    rw [if_neg hne]
    exact List.mem_append.mpr (.inr (List.mem_cons_self _ _))

theorem findEssential_spec (coverage : List (Term × Finset Nat)) (minterms : List Nat) :
    (∀ m ∈ (findEssential coverage minterms).2,
      ∃ p ∈ (findEssential coverage minterms).1, ∃ cov, (p, cov) ∈ coverage ∧ m ∈ cov) ∧
    (∀ p ∈ (findEssential coverage minterms).1,
      ∃ m' ∈ minterms, ∃ cov,
        coverage.filter (fun pc => decide (m' ∈ pc.2)) = [(p, cov)]) := by
  unfold findEssential
  refine foldl_pres_mem (fun acc : List Term × Finset Nat =>
    (∀ m ∈ acc.2, ∃ p ∈ acc.1, ∃ cov, (p, cov) ∈ coverage ∧ m ∈ cov) ∧
    (∀ p ∈ acc.1, ∃ m' ∈ minterms, ∃ cov,
      coverage.filter (fun pc => decide (m' ∈ pc.2)) = [(p, cov)]))
    (essentialStep coverage) minterms ([], ∅) ?_ (by simp)
  intro acc m hm hacc
  unfold essentialStep
  split
  · rename_i pc hfil
    split
    · exact hacc
    · constructor
      · intro m' hm'
        rcases Finset.mem_union.mp hm' with h | h
        · rcases hacc.1 m' h with ⟨p, hp, cov, hcov, hmc⟩
          exact ⟨p, List.mem_append.mpr (.inl hp), cov, hcov, hmc⟩
        · refine ⟨pc.1, List.mem_append.mpr (.inr (List.mem_cons_self _ _)), pc.2, ?_, h⟩
          have hpcmem : pc ∈ coverage.filter (fun pc => decide (m ∈ pc.2)) := by
            rw [hfil]
            exact List.mem_cons_self _ _
          exact (List.mem_filter.mp hpcmem).1
      · intro p hp
        rcases List.mem_append.mp hp with h | h
        · exact hacc.2 p h
        · rcases List.mem_cons.mp h with rfl | h
          · exact ⟨m, hm, pc.2, by rw [hfil]⟩
          · exact absurd h (List.not_mem_nil p)
  · exact hacc

theorem greedyLoop_prefix : ∀ (fuel : Nat) (relevant : List (Term × Finset Nat))
    (remaining : Finset Nat) (sel : List Term),
    ∃ rest, greedyLoop fuel relevant remaining sel = sel ++ rest := by
  intro fuel
  induction fuel with
  | zero => intro relevant remaining sel; exact ⟨[], by simp [greedyLoop]⟩
  | succ fuel ih =>
    intro relevant remaining sel
    unfold greedyLoop
    split
    · exact ⟨[], by simp⟩
    · split
      · exact ⟨[], by simp⟩
      · rename_i bpi bcov heq
        rcases ih ((relevant.map (fun pc => (pc.1, pc.2 \ (bcov ∩ remaining)))).filter
          (fun pc => decide (pc.2 ≠ ∅))) (remaining \ (bcov ∩ remaining))
          (sel ++ [bpi]) with ⟨rest, hrest⟩
        exact ⟨[bpi] ++ rest, by rw [hrest]; simp⟩

theorem greedyLoop_covers (P0 : Term → Prop) :
    ∀ (fuel : Nat) (relevant : List (Term × Finset Nat)) (remaining : Finset Nat)
      (sel : List Term),
    remaining.card < fuel →
    (∀ pc ∈ relevant, pc.2 ⊆ remaining ∧ pc.2 ⊆ pc.1.minterms ∧ P0 pc.1) →
    (∀ m ∈ remaining, ∃ pc ∈ relevant, m ∈ pc.2) →
    ∀ m ∈ remaining, ∃ t ∈ greedyLoop fuel relevant remaining sel,
      m ∈ t.minterms ∧ P0 t := by
  intro fuel
  induction fuel with
  | zero =>
    intro relevant remaining sel hcard _ _ m hm
    omega
  | succ fuel ih =>
    intro relevant remaining sel hcard hinv hcov m hm
    have hrem_ne : ¬ remaining = ∅ := by
      intro h
      rw [h] at hm
      exact absurd hm (Finset.not_mem_empty m)
    have hrel_ne : ¬ relevant = [] := by
      intro h
      rcases hcov m hm with ⟨pc, hpc, _⟩
      rw [h] at hpc
      exact absurd hpc (List.not_mem_nil pc)
    have hcond : ¬ (remaining = ∅ ∨ relevant = []) := by
      rintro (h | h)
      · exact hrem_ne h
      · exact hrel_ne h
    have hbest : ∃ pc, bestOf relevant remaining = some pc := by
      rcases hcov m hm with ⟨pc0, hpc0, hmc0⟩
      unfold bestOf
      rcases bestFold_none remaining relevant with ⟨_, hall⟩ |
        ⟨pc, sz, hfold, _, _, _⟩
      · have hz := hall pc0 hpc0
        have : m ∈ pc0.2 ∩ remaining := Finset.mem_inter.mpr ⟨hmc0, hm⟩
        have : 0 < (pc0.2 ∩ remaining).card := Finset.card_pos.mpr ⟨m, this⟩
        omega
      · exact ⟨pc, by rw [hfold]; rfl⟩
    rcases hbest with ⟨⟨bpi, bcov⟩, hbest⟩
    have hbprops := bestOf_first_max relevant remaining (bpi, bcov) hbest
    have hbmem : (bpi, bcov) ∈ relevant := by
      rcases hbprops.2 with ⟨l1, l2, heq, _, _⟩
      rw [heq]
      exact List.mem_append.mpr (.inr (List.mem_cons_self _ _))
    have hbinv := hinv (bpi, bcov) hbmem
    have hstep : greedyLoop (fuel + 1) relevant remaining sel =
        greedyLoop fuel ((relevant.map (fun pc => (pc.1, pc.2 \ (bcov ∩ remaining)))).filter
          (fun pc => decide (pc.2 ≠ ∅))) (remaining \ (bcov ∩ remaining))
          (sel ++ [bpi]) := by
      conv_lhs => rw [greedyLoop]
      rw [if_neg hcond, hbest]
    rw [hstep]
    by_cases hmn : m ∈ bcov ∩ remaining
    · -- m is newly covered by the selected PI
      rcases greedyLoop_prefix fuel _ _ (sel ++ [bpi]) with ⟨rest, hrest⟩
      refine ⟨bpi, ?_, ?_, hbinv.2.2⟩
      · rw [hrest]
        exact List.mem_append.mpr (.inl (List.mem_append.mpr
          (.inr (List.mem_cons_self _ _))))
      · exact hbinv.2.1 (Finset.mem_inter.mp hmn).1
    · -- m survives into the next round
      have hm2 : m ∈ remaining \ (bcov ∩ remaining) := Finset.mem_sdiff.mpr ⟨hm, hmn⟩
      have hcard2 : (remaining \ (bcov ∩ remaining)).card < fuel := by
        have hss : remaining \ (bcov ∩ remaining) ⊂ remaining :=
          Finset.sdiff_ssubset Finset.inter_subset_right
            (Finset.card_pos.mp hbprops.1)
        have := Finset.card_lt_card hss
        omega
      refine ih _ _ (sel ++ [bpi]) hcard2 ?_ ?_ m hm2
      · intro pc hpc
        rcases List.mem_filter.mp hpc with ⟨hpc1, hpc2⟩
        rcases List.mem_map.mp hpc1 with ⟨qc, hqc, rfl⟩
        rcases hinv qc hqc with ⟨hq1, hq2, hq3⟩
        refine ⟨?_, ?_, hq3⟩
        · intro x hx
          rcases Finset.mem_sdiff.mp hx with ⟨hx1, hx2⟩
          exact Finset.mem_sdiff.mpr ⟨hq1 hx1, hx2⟩
        · intro x hx
          exact hq2 (Finset.mem_sdiff.mp hx).1
      · intro m' hm'
        rcases Finset.mem_sdiff.mp hm' with ⟨hm'1, hm'2⟩
        rcases hcov m' hm'1 with ⟨qc, hqc, hmq⟩
        refine ⟨(qc.1, qc.2 \ (bcov ∩ remaining)), ?_, ?_⟩
        · refine List.mem_filter.mpr ⟨List.mem_map.mpr ⟨qc, hqc, rfl⟩, ?_⟩
          simp only [decide_eq_true_eq]
          intro hempty
          have : m' ∈ qc.2 \ (bcov ∩ remaining) := Finset.mem_sdiff.mpr ⟨hmq, hm'2⟩
          rw [hempty] at this
          exact absurd this (Finset.not_mem_empty m')
        · exact Finset.mem_sdiff.mpr ⟨hmq, hm'2⟩

theorem solveCovering_covers (P0 : Term → Prop)
    (coverage : List (Term × Finset Nat)) (uncovered : Finset Nat)
    (hinv : ∀ pc ∈ coverage, pc.2 ⊆ pc.1.minterms ∧ P0 pc.1)
    (hcov : ∀ m ∈ uncovered, ∃ pc ∈ coverage, m ∈ pc.2) :
    ∀ m ∈ uncovered, ∃ t ∈ solveCoveringProblem coverage uncovered,
      m ∈ t.minterms ∧ P0 t := by
  intro m hm
  have hne : ¬ uncovered = ∅ := by
    intro h
    rw [h] at hm
    exact absurd hm (Finset.not_mem_empty m)
  have hrel_elim : ∀ qc ∈ coverage.foldl (fun acc pc =>
      let rc := pc.2 ∩ uncovered
      if rc = ∅ then acc else acc ++ [(pc.1, rc)]) [],
      ∃ pc ∈ coverage, qc = (pc.1, pc.2 ∩ uncovered) := by
    refine foldl_pres_mem (fun acc : List (Term × Finset Nat) => ∀ qc ∈ acc,
      ∃ pc ∈ coverage, qc = (pc.1, pc.2 ∩ uncovered)) _ coverage [] ?_ (by simp)
    intro acc pc hpc hacc
    dsimp only
    split
    · exact hacc
    · intro qc hqc
      rcases List.mem_append.mp hqc with h | h
      · exact hacc qc h
      · rcases List.mem_cons.mp h with rfl | h
        · exact ⟨pc, hpc, rfl⟩
        · exact absurd h (List.not_mem_nil qc)
  have hrel_intro : ∀ pc ∈ coverage, pc.2 ∩ uncovered ≠ ∅ →
      (pc.1, pc.2 ∩ uncovered) ∈ coverage.foldl (fun acc pc =>
        let rc := pc.2 ∩ uncovered
        if rc = ∅ then acc else acc ++ [(pc.1, rc)]) [] := by
    intro pc hpc hne2
    refine foldl_intro_mem (fun acc : List (Term × Finset Nat) =>
      (pc.1, pc.2 ∩ uncovered) ∈ acc) _ pc coverage [] ?_ ?_ hpc
    · intro acc qc _ hacc
      dsimp only
      split
      · exact hacc
      · exact List.mem_append.mpr (.inl hacc)
    · intro acc
      dsimp only
      rw [if_neg hne2]
      exact List.mem_append.mpr (.inr (List.mem_cons_self _ _))
  have hsolve : solveCoveringProblem coverage uncovered =
      greedyLoop (uncovered.card + 1) (coverage.foldl (fun acc pc =>
        let rc := pc.2 ∩ uncovered
        if rc = ∅ then acc else acc ++ [(pc.1, rc)]) []) uncovered [] := by
    unfold solveCoveringProblem
    rw [if_neg hne]
  rw [hsolve]
  refine greedyLoop_covers P0 (uncovered.card + 1) _ uncovered [] (by omega) ?_ ?_ m hm
  · intro qc hqc
    rcases hrel_elim qc hqc with ⟨pc, hpc, rfl⟩
    rcases hinv pc hpc with ⟨h1, h2⟩
    exact ⟨Finset.inter_subset_right, fun x hx => h1 (Finset.mem_inter.mp hx).1, h2⟩
  · intro m' hm'
    rcases hcov m' hm' with ⟨pc, hpc, hmp⟩
    have hne2 : pc.2 ∩ uncovered ≠ ∅ := by
      intro h
      have : m' ∈ pc.2 ∩ uncovered := Finset.mem_inter.mpr ⟨hmp, hm'⟩
      rw [h] at this
      exact absurd this (Finset.not_mem_empty m')
    exact ⟨(pc.1, pc.2 ∩ uncovered), hrel_intro pc hpc hne2,
      Finset.mem_inter.mpr ⟨hmp, hm'⟩⟩

/-- C10: every prime implicant produced by the exact engine's tabulation is
disjoint from the off-set: for every minterm m outside onSet ∪ dontCares, m
is neither in the PI's tracked covered-minterm set nor in the semantic
minterm set of its cube — each term's minterm set stays inside
onSet ∪ dontCares through every merge generation. -/
theorem qm_prime_implicants_sound (st : QMState)
    (hval : ∀ m ∈ st.minterms ++ st.dontCares, m < 2 ^ st.numVariables) :
    ∀ p ∈ findPrimeImplicants st.numVariables st.minterms st.dontCares,
    ∀ m : Nat, m ∉ st.minterms ++ st.dontCares → m ∉ p.minterms ∧ m ∉ semL p.rep := by
  intro p hp m hm
  rcases (findPrimeImplicants_inv _ _ _ hval).1 p hp with ⟨_, _, hsem, hsub⟩
  constructor
  · intro hmem
    exact hm (List.mem_toFinset.mp (hsub m hmem))
  · intro hmem
    exact hm (List.mem_toFinset.mp (hsub m ((hsem m).mpr hmem)))

/-- Witness for the C10 theorem at a concrete input. -/
theorem qm_prime_implicants_sound_witness :
    (2 : Nat) ∉ (⟨{0, 1}, ['0', '-']⟩ : Term).minterms ∧
    (2 : Nat) ∉ semL ['0', '-'] :=
  qm_prime_implicants_sound ⟨2, [0, 1], []⟩ (by decide)
    ⟨{0, 1}, ['0', '-']⟩ (by decide) 2 (by decide)

/-- C9: for every valid input, every on-set minterm is covered by some prime
implicant selected by QuineMcCluskey.minimize (essential prime implicants
plus the greedy residual selections): the union of the selected cubes'
minterm sets is a superset of the on-set. -/
theorem qm_minimize_completeness (st : QMState)
    (hval : ∀ m ∈ st.minterms ++ st.dontCares, m < 2 ^ st.numVariables) :
    ∀ m ∈ st.minterms, ∃ t ∈ (qmMinimize st).selected,
      m ∈ semL t.rep ∧ m ∈ t.minterms := by
  intro m hm
  have hne : ¬ st.minterms = [] := by
    intro h
    rw [h] at hm
    exact absurd hm (List.not_mem_nil m)
  have hsel : (qmMinimize st).selected =
      (findEssential (coverageTable st.minterms.toFinset
          (findPrimeImplicants st.numVariables st.minterms st.dontCares))
          st.minterms).1 ++
        solveCoveringProblem (coverageTable st.minterms.toFinset
          (findPrimeImplicants st.numVariables st.minterms st.dontCares))
          (st.minterms.toFinset \ (findEssential (coverageTable st.minterms.toFinset
            (findPrimeImplicants st.numVariables st.minterms st.dontCares))
            st.minterms).2) := by
    simp only [qmMinimize]
    rw [if_neg hne]
    split <;> rfl
  rcases findPrimeImplicants_inv st.numVariables st.minterms st.dontCares hval with
    ⟨hinv, hcover⟩
  rw [hsel]
  by_cases hness : m ∈ (findEssential (coverageTable st.minterms.toFinset
      (findPrimeImplicants st.numVariables st.minterms st.dontCares)) st.minterms).2
  · rcases (findEssential_spec (coverageTable st.minterms.toFinset
        (findPrimeImplicants st.numVariables st.minterms st.dontCares))
        st.minterms).1 m hness with ⟨p, hp, cov, hcovmem, hmcov⟩
    rcases coverageTable_elim st.minterms.toFinset
      (findPrimeImplicants st.numVariables st.minterms st.dontCares)
      (p, cov) hcovmem with ⟨hppis, hcove, _⟩
    have hmp : m ∈ p.minterms := by
      have hcove2 : cov = p.minterms ∩ st.minterms.toFinset := hcove
      have hx := hmcov
      rw [hcove2] at hx
      exact (Finset.mem_inter.mp hx).1
    rcases hinv p hppis with ⟨_, _, hsem, _⟩
    exact ⟨p, List.mem_append.mpr (.inl hp), (hsem m).mp hmp, hmp⟩
  · have hmunc : m ∈ st.minterms.toFinset \ (findEssential (coverageTable
        st.minterms.toFinset (findPrimeImplicants st.numVariables st.minterms
        st.dontCares)) st.minterms).2 :=
      Finset.mem_sdiff.mpr ⟨List.mem_toFinset.mpr hm, hness⟩
    have hres := solveCovering_covers
      (fun t => ∀ m', m' ∈ t.minterms ↔ m' ∈ semL t.rep)
      (coverageTable st.minterms.toFinset
        (findPrimeImplicants st.numVariables st.minterms st.dontCares))
      (st.minterms.toFinset \ (findEssential (coverageTable st.minterms.toFinset
        (findPrimeImplicants st.numVariables st.minterms st.dontCares))
        st.minterms).2)
      ?_ ?_ m hmunc
    · rcases hres with ⟨t, ht, hmt, hP⟩
      exact ⟨t, List.mem_append.mpr (.inr ht), (hP m).mp hmt, hmt⟩
    · intro pc hpc
      rcases coverageTable_elim _ _ pc hpc with ⟨hpis, hcove, _⟩
      refine ⟨?_, ?_⟩
      · intro x hx
        rw [hcove] at hx
        exact (Finset.mem_inter.mp hx).1
      · rcases hinv pc.1 hpis with ⟨_, _, hsem, _⟩
        exact hsem
    · intro m' hm'
      have hm'on : m' ∈ st.minterms :=
        List.mem_toFinset.mp (Finset.mem_sdiff.mp hm').1
      rcases hcover m' (List.mem_append.mpr (.inl hm'on)) with ⟨p, hppis, hmp⟩
      have hne2 : p.minterms ∩ st.minterms.toFinset ≠ ∅ := by
        intro h
        have hx : m' ∈ p.minterms ∩ st.minterms.toFinset :=
          Finset.mem_inter.mpr ⟨hmp, List.mem_toFinset.mpr hm'on⟩
        rw [h] at hx
        exact absurd hx (Finset.not_mem_empty m')
      exact ⟨(p, p.minterms ∩ st.minterms.toFinset),
        coverageTable_intro _ _ p hppis hne2,
        Finset.mem_inter.mpr ⟨hmp, List.mem_toFinset.mpr hm'on⟩⟩

/-- Witness for the C9 theorem at a concrete input. -/
theorem qm_minimize_completeness_witness :
    ∃ t ∈ (qmMinimize ⟨2, [0, 1], []⟩).selected,
      (0 : Nat) ∈ semL t.rep ∧ (0 : Nat) ∈ t.minterms :=
  qm_minimize_completeness ⟨2, [0, 1], []⟩ (by decide) 0 (by decide)

theorem exists_toBin_of_nodash : ∀ (n : Nat) (rep : Rep), rep.length = n → wfRep rep →
    dashCount rep = 0 → ∃ m, m < 2 ^ n ∧ toBin n m = rep := by
  intro n
  induction n with
  | zero =>
    intro rep hlen _ _
    have : rep = [] := List.length_eq_zero.mp hlen
    subst this
    exact ⟨0, by simp, rfl⟩
  | succ n ih =>
    intro rep hlen hwf hdash
    cases rep with
    | nil => simp at hlen
    | cons c r =>
      have hlen' : r.length = n := by simpa using hlen
      have hwf' : wfRep r := fun d hd => hwf d (List.mem_cons_of_mem _ hd)
      have hdash' : dashCount r = 0 := by
        unfold dashCount at hdash ⊢
        simp only [List.count_cons] at hdash
        omega
      have hc : c ≠ '-' := by
        intro hc
        unfold dashCount at hdash
        simp [List.count_cons, hc] at hdash
      rcases ih r hlen' hwf' hdash' with ⟨m, hmlt, hmbin⟩
      rcases hwf c (List.mem_cons_self _ _) with rfl | rfl | rfl
      · refine ⟨m, by
          have : (2:Nat) ^ n ≤ 2 ^ (n+1) := Nat.pow_le_pow_right (by omega) (by omega)
          omega, ?_⟩
        show (if 2 ^ n ≤ m then '1' else '0') :: toBin n (m % 2 ^ n) = '0' :: r
        rw [if_neg (by omega), Nat.mod_eq_of_lt hmlt, hmbin]
      · refine ⟨2 ^ n + m, by
          have h2 : (2:Nat) ^ (n+1) = 2 ^ n + 2 ^ n := by rw [pow_succ]; ring
          omega, ?_⟩
        show (if 2 ^ n ≤ 2 ^ n + m then '1' else '0') ::
          toBin n ((2 ^ n + m) % 2 ^ n) = '1' :: r
        rw [if_pos (by omega)]
        have hmod : (2 ^ n + m) % 2 ^ n = m := by
          rw [Nat.add_mod_left]
          exact Nat.mod_eq_of_lt hmlt
        rw [hmod, hmbin]
      · exact absurd rfl hc

theorem mem_semL_replicate (n m : Nat) (h : m < 2 ^ n) :
    m ∈ semL (List.replicate n '-') := by
  induction n generalizing m with
  | zero =>
    have : m = 0 := by simpa using h
    subst this
    simp [semL]
  | succ n ih =>
    have hrep : List.replicate (n + 1) '-' = '-' :: List.replicate n '-' := rfl
    rw [hrep, semL_cons_dash]
    by_cases hm : m < 2 ^ n
    · exact List.mem_append.mpr (.inl (ih m hm))
    · have h2 : (2:Nat) ^ (n+1) = 2 ^ n + 2 ^ n := by rw [pow_succ]; ring
      have hm' : m - 2 ^ n < 2 ^ n := by omega
      refine List.mem_append.mpr (.inr (List.mem_map.mpr ⟨m - 2 ^ n, ih _ hm', ?_⟩))
      simp only [List.length_replicate]
      omega

theorem length_semL_wf : ∀ (rep : Rep), wfRep rep →
    (semL rep).length = 2 ^ dashCount rep := by
  intro rep
  induction rep with
  | nil => intro _; rfl
  | cons c r ih =>
    intro hwf
    have hwf' : wfRep r := fun d hd => hwf d (List.mem_cons_of_mem _ hd)
    have ihr := ih hwf'
    rcases hwf c (List.mem_cons_self _ _) with rfl | rfl | rfl
    · rw [semL_cons_zero, ihr]
      unfold dashCount
      simp [List.count_cons]
    · rw [semL_cons_one, List.length_map, ihr]
      unfold dashCount
      simp [List.count_cons]
    · have hd : dashCount ('-' :: r) = dashCount r + 1 := by
        unfold dashCount
        simp [List.count_cons]
      rw [semL_cons_dash, List.length_append, List.length_map, ihr, hd, pow_succ]
      ring

theorem sem_full_imp_alldash (n : Nat) (rep : Rep) (hlen : rep.length = n)
    (hwf : wfRep rep) (hfull : ∀ m, m < 2 ^ n → m ∈ semL rep) :
    rep = List.replicate n '-' := by
  have hsub : Finset.range (2 ^ n) ⊆ (semL rep).toFinset := by
    intro m hm
    exact List.mem_toFinset.mpr (hfull m (Finset.mem_range.mp hm))
  have hcard : 2 ^ n ≤ (semL rep).toFinset.card := by
    have := Finset.card_le_card hsub
    simpa using this
  have hcard2 : (semL rep).toFinset.card ≤ (semL rep).length :=
    List.toFinset_card_le _
  have hlen2 : (semL rep).length = 2 ^ dashCount rep := length_semL_wf rep hwf
  have hpow : 2 ^ n ≤ 2 ^ dashCount rep := by omega
  have hdn : n ≤ dashCount rep := (Nat.pow_le_pow_iff_right (by omega)).mp hpow
  have hdle : dashCount rep ≤ rep.length := List.count_le_length _ _
  have hdeq : dashCount rep = rep.length := by omega
  rw [List.eq_replicate_iff]
  refine ⟨hlen, fun b hb => ?_⟩
  unfold dashCount at hdeq
  have := List.count_eq_length.mp hdeq
  have hbeq := this b hb
  simpa using hbeq.symm

theorem noDashDiff_refl : ∀ r : Rep, noDashDiff r r = true := by
  intro r
  induction r with
  | nil => rfl
  | cons c l ih =>
    show ((c == c || (c != '-' && c != '-')) && noDashDiff l l) = true
    simp [ih]

theorem diffCount_refl : ∀ r : Rep, diffCount r r = 0 := by
  intro r
  induction r with
  | nil => rfl
  | cons c l ih =>
    show (if c = c then 0 else 1) + diffCount l l = 0
    rw [if_pos rfl, ih]

theorem noDashDiff_swap01 (l l2 : List Char) :
    noDashDiff (l ++ '0' :: l2) (l ++ '1' :: l2) = true := by
  induction l with
  | nil =>
    show (('0' == '1' || ('0' != '-' && '1' != '-')) && noDashDiff l2 l2) = true
    rw [noDashDiff_refl]
    decide
  | cons c l ih =>
    show ((c == c || (c != '-' && c != '-')) && noDashDiff (l ++ '0' :: l2)
      (l ++ '1' :: l2)) = true
    simp [ih]

theorem diffCount_swap01 (l l2 : List Char) :
    diffCount (l ++ '0' :: l2) (l ++ '1' :: l2) = 1 := by
  induction l with
  | nil =>
    show (if ('0' : Char) = '1' then 0 else 1) + diffCount l2 l2 = 1
    rw [diffCount_refl, if_neg (by decide)]
  | cons c l ih =>
    show (if c = c then 0 else 1) + diffCount (l ++ '0' :: l2) (l ++ '1' :: l2) = 1
    rw [if_pos rfl, ih]

theorem combineRepR_swap01 (l l2 : List Char) :
    combineRepR (l ++ '0' :: l2) (l ++ '1' :: l2) = l ++ '-' :: l2 := by
  induction l with
  | nil =>
    show (if ('0' : Char) = '1' then '0' else '-') :: combineRepR l2 l2 = '-' :: l2
    rw [if_neg (by decide), combineRepR_self]
  | cons c l ih =>
    show (if c = c then c else '-') :: combineRepR (l ++ '0' :: l2) (l ++ '1' :: l2)
      = c :: (l ++ '-' :: l2)
    rw [if_pos rfl, ih]

theorem alldash_no_combine : ∀ (k : Nat) (r : Rep),
    noDashDiff (List.replicate k '-') r = true →
    diffCount (List.replicate k '-') r = 0 := by
  intro k
  induction k with
  | zero => intro r _; cases r <;> rfl
  | succ k ih =>
    intro r hnd
    cases r with
    | nil => rfl
    | cons c2 l =>
      have hrep : List.replicate (k + 1) '-' = '-' :: List.replicate k '-' := rfl
      rw [hrep] at hnd ⊢
      have hnd' : (('-' == c2 || ('-' != '-' && c2 != '-')) &&
          noDashDiff (List.replicate k '-') l) = true := hnd
      simp only [Bool.and_eq_true, Bool.or_eq_true, Bool.and_eq_true,
        bne_iff_ne, beq_iff_eq] at hnd'
      rcases hnd' with ⟨h1 | h2, hrest⟩
      · show (if '-' = c2 then 0 else 1) + diffCount (List.replicate k '-') l = 0
        rw [if_pos h1, ih l hrest]
      · exact absurd rfl h2.1

theorem qmLoop_pis_mono : ∀ (fuel : Nat) (pis current : List Term) (t : Term),
    t ∈ pis → t ∈ qmLoop fuel pis current := by
  intro fuel
  induction fuel with
  | zero => intro pis current t ht; exact ht
  | succ fuel ih =>
    intro pis current t ht
    rw [qmLoop]
    split
    · exact ht
    · exact ih _ _ t (List.mem_append.mpr (.inl ht))

theorem count_append_cons (x c : Char) (l l2 : List Char) :
    List.count x (l ++ c :: l2) =
    List.count x l + List.count x l2 + (if x = c then 1 else 0) := by
  rw [List.count_append, List.count_cons]
  by_cases h : x = c
  · simp [h]
    omega
  · have hbe : (x == c) = false := by simpa using h
    simp [h, hbe]
    exact fun hh => h hh.symm

theorem count_replicate_aux (x c : Char) (k : Nat) :
    List.count x (List.replicate k c) = if x = c then k else 0 := by
  induction k with
  | zero => simp
  | succ k ih =>
    rw [List.replicate_succ, List.count_cons, ih]
    by_cases h : x = c
    · simp [h]
    · have hbe : (x == c) = false := by simpa using h
      simp [h, hbe]
      exact fun hh => h hh.symm

theorem wf_mid (l l2 : List Char) (c : Char) (hc : c = '0' ∨ c = '1' ∨ c = '-')
    (hwf : wfRep (l ++ '-' :: l2)) : wfRep (l ++ c :: l2) := by
  intro d hd
  rcases List.mem_append.mp hd with h | h
  · exact hwf d (List.mem_append.mpr (.inl h))
  · rcases List.mem_cons.mp h with rfl | h
    · exact hc
    · exact hwf d (List.mem_append.mpr (.inr (List.mem_cons_of_mem _ h)))

theorem qmLoop_alldash (n : Nat) :
    ∀ (fuel g : Nat) (pis current : List Term),
    (n + 1) - g ≤ fuel → g ≤ n →
    (∀ rep : Rep, rep.length = n → wfRep rep → dashCount rep = g →
      ∃ t ∈ current, t.rep = rep) →
    ∃ t ∈ qmLoop fuel pis current, t.rep = List.replicate n '-' := by
  intro fuel
  induction fuel with
  | zero =>
    intro g pis current hfuel hg hsurj
    exact absurd hfuel (by omega)
  | succ fuel ih =>
    intro g pis current hfuel hg hsurj
    have hwit : ∃ t ∈ current,
        t.rep = List.replicate g '-' ++ List.replicate (n - g) '0' := by
      apply hsurj
      · simp
        omega
      · intro c hc
        rcases List.mem_append.mp hc with h | h
        · exact .inr (.inr (List.eq_of_mem_replicate h))
        · exact .inl (List.eq_of_mem_replicate h)
      · show List.count '-' (List.replicate g '-' ++ List.replicate (n - g) '0') = g
        rw [List.count_append, count_replicate_aux, count_replicate_aux,
          if_pos rfl, if_neg (by decide : ¬ ('-' : Char) = '0')]
        omega
    rcases hwit with ⟨tw, htw, _⟩
    have hne : ¬ current = [] := by
      intro h
      rw [h] at htw
      exact absurd htw (List.not_mem_nil tw)
    rw [qmLoop]
    rw [if_neg hne]
    by_cases hgn : g = n
    · subst hgn
      have hstar : ∃ t ∈ current, t.rep = List.replicate g '-' := by
        apply hsurj
        · simp
        · intro c hc
          exact .inr (.inr (List.eq_of_mem_replicate hc))
        · show List.count '-' (List.replicate g '-') = g
          rw [count_replicate_aux, if_pos rfl]
      rcases hstar with ⟨ts, hts, hrep⟩
      have hunused : usedB current ts = false := by
        cases hu : usedB current ts
        · rfl
        · exfalso
          unfold usedB at hu
          rcases List.any_eq_true.mp hu with ⟨t2, ht2, hcc⟩
          rcases canCombineWith_parts hcc with ⟨hlen, hnd, hdf⟩
          rw [hrep] at hnd hdf
          rw [alldash_no_combine g t2.rep hnd] at hdf
          exact absurd hdf (by decide)
      refine ⟨ts, qmLoop_pis_mono fuel _ _ ts ?_, hrep⟩
      refine List.mem_append.mpr (.inr (List.mem_filter.mpr ⟨hts, ?_⟩))
      show (!usedB current ts) = true
      rw [hunused]
      rfl
    · have hgn' : g < n := lt_of_le_of_ne hg hgn
      refine ih (g + 1) _ (combineStep current) (by omega) (by omega) ?_
      intro rep hlen hwf hdash
      have hdmem : '-' ∈ rep := by
        by_contra hmem
        have hz : dashCount rep = 0 := by
          unfold dashCount
          exact List.count_eq_zero.mpr hmem
        omega
      rcases List.append_of_mem hdmem with ⟨l1, l2, rfl⟩
      have hlen1 : (l1 ++ '0' :: l2).length = n := by simpa using hlen
      have hlen2 : (l1 ++ '1' :: l2).length = n := by simpa using hlen
      have hdash0 : dashCount (l1 ++ '0' :: l2) = g := by
        unfold dashCount at hdash ⊢
        rw [count_append_cons, if_pos rfl] at hdash
        rw [count_append_cons, if_neg (by decide : ¬ ('-' : Char) = '0')]
        omega
      have hdash1 : dashCount (l1 ++ '1' :: l2) = g := by
        unfold dashCount at hdash ⊢
        rw [count_append_cons, if_pos rfl] at hdash
        rw [count_append_cons, if_neg (by decide : ¬ ('-' : Char) = '1')]
        omega
      have hwf0 : wfRep (l1 ++ '0' :: l2) := wf_mid l1 l2 '0' (.inl rfl) hwf
      have hwf1 : wfRep (l1 ++ '1' :: l2) := wf_mid l1 l2 '1' (.inr (.inl rfl)) hwf
      rcases hsurj (l1 ++ '0' :: l2) hlen1 hwf0 hdash0 with ⟨ta, hta, hrepa⟩
      rcases hsurj (l1 ++ '1' :: l2) hlen2 hwf1 hdash1 with ⟨tb, htb, hrepb⟩
      have hcc : canCombineWith ta tb = true := by
        unfold canCombineWith
        rw [hrepa, hrepb]
        simp only [Bool.and_eq_true, beq_iff_eq, Nat.beq_eq_true_eq]
        exact ⟨⟨by simp, noDashDiff_swap01 l1 l2⟩, diffCount_swap01 l1 l2⟩
      have hones : onesCount tb.rep = onesCount ta.rep + 1 := by
        rw [hrepa, hrepb]
        unfold onesCount
        rw [count_append_cons, count_append_cons, if_pos rfl,
          if_neg (by decide : ¬ ('1' : Char) = '0')]
      rcases mem_combineStep current ta tb hta htb hcc hones with ⟨c, hcmem, hcrep⟩
      refine ⟨c, hcmem, ?_⟩
      rw [hcrep, hrepa, hrepb, combineRepR_swap01]

theorem greedyLoop_full_pick (relevant : List (Term × Finset Nat)) (onF : Finset Nat)
    (sel : List Term) (fuel : Nat) (E1 : Term)
    (hErel : (E1, onF) ∈ relevant) (honF_ne : onF ≠ ∅) :
    ∃ p bcov, (p, bcov) ∈ relevant ∧ onF ⊆ bcov ∧
      p ∈ greedyLoop (fuel + 1) relevant onF sel := by
  rcases Finset.nonempty_iff_ne_empty.mpr honF_ne with ⟨m0, hm0⟩
  have hbest : ∃ pc, bestOf relevant onF = some pc := by
    unfold bestOf
    rcases bestFold_none onF relevant with ⟨_, hall⟩ | ⟨pc, sz, hfold, _, _, _⟩
    · have hz := hall (E1, onF) hErel
      have hmm : m0 ∈ ((E1, onF) : Term × Finset Nat).2 ∩ onF :=
        Finset.mem_inter.mpr ⟨hm0, hm0⟩
      have hcpos : 0 < (((E1, onF) : Term × Finset Nat).2 ∩ onF).card :=
        Finset.card_pos.mpr ⟨m0, hmm⟩
      omega
    · exact ⟨pc, by rw [hfold]; rfl⟩
  rcases hbest with ⟨⟨bpi, bcov⟩, hbestEq⟩
  rcases bestOf_first_max relevant onF (bpi, bcov) hbestEq with
    ⟨hpos, l1, l2, heq, hlt, hle⟩
  dsimp only at hpos hlt hle
  have hble : (bcov ∩ onF).card ≤ onF.card :=
    Finset.card_le_card Finset.inter_subset_right
  have hbsz : (bcov ∩ onF).card = onF.card := by
    have hEcases : ((E1, onF) : Term × Finset Nat) ∈ l1 ∨
        ((E1, onF) : Term × Finset Nat) = (bpi, bcov) ∨
        ((E1, onF) : Term × Finset Nat) ∈ l2 := by
      have hx := hErel
      rw [heq] at hx
      rcases List.mem_append.mp hx with h | h
      · exact .inl h
      · rcases List.mem_cons.mp h with h | h
        · exact .inr (.inl h)
        · exact .inr (.inr h)
    rcases hEcases with h | h | h
    · have hcl := hlt _ h
      dsimp only at hcl
      rw [Finset.inter_self] at hcl
      omega
    · have h2 : onF = bcov := congrArg Prod.snd h
      rw [← h2, Finset.inter_self]
    · have hcl := hle _ h
      dsimp only at hcl
      rw [Finset.inter_self] at hcl
      omega
  have hbcov_eq : bcov ∩ onF = onF :=
    Finset.eq_of_subset_of_card_le Finset.inter_subset_right (by omega)
  have honF_sub : onF ⊆ bcov := by
    intro x hx
    have hxm : x ∈ bcov ∩ onF := by rw [hbcov_eq]; exact hx
    exact (Finset.mem_inter.mp hxm).1
  have hbmem : ((bpi, bcov) : Term × Finset Nat) ∈ relevant := by
    rw [heq]
    exact List.mem_append.mpr (.inr (List.mem_cons_self _ _))
  have hcond : ¬ (onF = ∅ ∨ relevant = []) := by
    rintro (h | h)
    · exact honF_ne h
    · rw [h] at hErel
      exact absurd hErel (List.not_mem_nil _)
  have hstep : greedyLoop (fuel + 1) relevant onF sel =
      greedyLoop fuel ((relevant.map (fun pc => (pc.1, pc.2 \ (bcov ∩ onF)))).filter
        (fun pc => decide (pc.2 ≠ ∅))) (onF \ (bcov ∩ onF)) (sel ++ [bpi]) := by
    conv_lhs => rw [greedyLoop]
    rw [if_neg hcond, hbestEq]
  rcases greedyLoop_prefix fuel
    ((relevant.map (fun pc => (pc.1, pc.2 \ (bcov ∩ onF)))).filter
      (fun pc => decide (pc.2 ≠ ∅))) (onF \ (bcov ∩ onF)) (sel ++ [bpi]) with ⟨rest, hrest⟩
  refine ⟨bpi, bcov, hbmem, honF_sub, ?_⟩
  rw [hstep, hrest]
  exact List.mem_append.mpr (.inl (List.mem_append.mpr (.inr (List.mem_cons_self _ _))))

theorem solveCovering_full_pick (coverage : List (Term × Finset Nat)) (onF : Finset Nat)
    (honF_ne : onF ≠ ∅) (E : Term × Finset Nat) (hEc : E ∈ coverage) (hE2 : E.2 = onF) :
    ∃ p ∈ solveCoveringProblem coverage onF,
      ∃ qc ∈ coverage, p = qc.1 ∧ onF ⊆ qc.2 := by
  have hrel_elim : ∀ qc ∈ coverage.foldl (fun acc pc =>
      let rc := pc.2 ∩ onF
      if rc = ∅ then acc else acc ++ [(pc.1, rc)]) [],
      ∃ pc ∈ coverage, qc = (pc.1, pc.2 ∩ onF) := by
    refine foldl_pres_mem (fun acc : List (Term × Finset Nat) => ∀ qc ∈ acc,
      ∃ pc ∈ coverage, qc = (pc.1, pc.2 ∩ onF)) _ coverage [] ?_ (by simp)
    intro acc pc hpc hacc
    dsimp only
    split
    · exact hacc
    · intro qc hqc
      rcases List.mem_append.mp hqc with h | h
      · exact hacc qc h
      · rcases List.mem_cons.mp h with rfl | h
        · exact ⟨pc, hpc, rfl⟩
        · exact absurd h (List.not_mem_nil qc)
  have hrel_intro : ∀ pc ∈ coverage, pc.2 ∩ onF ≠ ∅ →
      (pc.1, pc.2 ∩ onF) ∈ coverage.foldl (fun acc pc =>
        let rc := pc.2 ∩ onF
        if rc = ∅ then acc else acc ++ [(pc.1, rc)]) [] := by
    intro pc hpc hne2
    refine foldl_intro_mem (fun acc : List (Term × Finset Nat) =>
      (pc.1, pc.2 ∩ onF) ∈ acc) _ pc coverage [] ?_ ?_ hpc
    · intro acc qc _ hacc
      dsimp only
      split
      · exact hacc
      · exact List.mem_append.mpr (.inl hacc)
    · intro acc
      dsimp only
      rw [if_neg hne2]
      exact List.mem_append.mpr (.inr (List.mem_cons_self _ _))
  have hsolve : solveCoveringProblem coverage onF =
      greedyLoop (onF.card + 1) (coverage.foldl (fun acc pc =>
        let rc := pc.2 ∩ onF
        if rc = ∅ then acc else acc ++ [(pc.1, rc)]) []) onF [] := by
    unfold solveCoveringProblem
    rw [if_neg honF_ne]
  have hErel : (E.1, onF) ∈ coverage.foldl (fun acc pc =>
      let rc := pc.2 ∩ onF
      if rc = ∅ then acc else acc ++ [(pc.1, rc)]) [] := by
    have h1 : E.2 ∩ onF = onF := by rw [hE2, Finset.inter_self]
    have hme := hrel_intro E hEc (by rw [h1]; exact honF_ne)
    rw [h1] at hme
    exact hme
  rcases greedyLoop_full_pick (coverage.foldl (fun acc pc =>
      let rc := pc.2 ∩ onF
      if rc = ∅ then acc else acc ++ [(pc.1, rc)]) []) onF [] onF.card E.1 hErel honF_ne
    with ⟨p, bcov, hpmem, hsub, hpout⟩
  rcases hrel_elim (p, bcov) hpmem with ⟨qc, hqc, hpair⟩
  have hp1 : p = qc.1 := congrArg Prod.fst hpair
  have hp2 : bcov = qc.2 ∩ onF := congrArg Prod.snd hpair
  refine ⟨p, by rw [hsolve]; exact hpout, ⟨qc, hqc, hp1, ?_⟩⟩
  intro x hx
  have hxb : x ∈ bcov := hsub hx
  rw [hp2] at hxb
  exact (Finset.mem_inter.mp hxb).1

theorem qmMinimize_empty (st : QMState) (h : st.minterms = []) :
    qmMinimize st = ⟨"0", [], [], [], 0⟩ := by
  simp [qmMinimize, h]

theorem qmMinimize_selected (st : QMState) (hne : ¬ st.minterms = []) :
    (qmMinimize st).selected =
      (findEssential (coverageTable st.minterms.toFinset
          (findPrimeImplicants st.numVariables st.minterms st.dontCares)) st.minterms).1 ++
      solveCoveringProblem (coverageTable st.minterms.toFinset
          (findPrimeImplicants st.numVariables st.minterms st.dontCares))
        (st.minterms.toFinset \ (findEssential (coverageTable st.minterms.toFinset
          (findPrimeImplicants st.numVariables st.minterms st.dontCares)) st.minterms).2) := by
  simp only [qmMinimize]
  rw [if_neg hne]
  split <;> rfl

theorem qmMinimize_cases (st : QMState) (hne : ¬ st.minterms = []) :
    ((qmMinimize st).selected.any
        (fun pi => toExpressionR (engineVariables st.numVariables) pi.rep == "1") = true ∧
      (qmMinimize st).cost = 1 ∧ (qmMinimize st).simplifiedExpression = "1") ∨
    ((qmMinimize st).selected.any
        (fun pi => toExpressionR (engineVariables st.numVariables) pi.rep == "1") = false ∧
      (qmMinimize st).cost = (qmMinimize st).selected.length) := by
  simp only [qmMinimize]
  rw [if_neg hne]
  split
  · rename_i hany
    left
    dsimp only
    exact ⟨hany, rfl, rfl⟩
  · rename_i hany
    right
    dsimp only
    refine ⟨?_, rfl⟩
    simp only [Bool.not_eq_true] at hany
    exact hany

theorem qmMinimize_cost_shape (st : QMState) :
    (qmMinimize st).cost =
      if (qmMinimize st).selected.any
          (fun pi => toExpressionR (engineVariables st.numVariables) pi.rep == "1") = true
        then 1 else (qmMinimize st).selected.length := by
  by_cases hne : st.minterms = []
  · simp [qmMinimize, hne]
  · rcases qmMinimize_cases st hne with ⟨ha, hc, _⟩ | ⟨ha, hc⟩
    · rw [hc, if_pos ha]
    · rw [hc, ha]
      simp

theorem qmMinimize_full_onset (st : QMState)
    (hfull : st.minterms = List.range (2 ^ st.numVariables))
    (hdc : ∀ m ∈ st.dontCares, m < 2 ^ st.numVariables) :
    (qmMinimize st).simplifiedExpression = "1" ∧ (qmMinimize st).cost = 1 := by
  have hpow : 0 < 2 ^ st.numVariables := pow_pos (by omega) _
  have hval : ∀ m ∈ st.minterms ++ st.dontCares, m < 2 ^ st.numVariables := by
    intro m hm
    rcases List.mem_append.mp hm with h | h
    · rw [hfull] at h
      exact List.mem_range.mp h
    · exact hdc m h
  have hfullmem : ∀ m, m < 2 ^ st.numVariables → m ∈ st.minterms ++ st.dontCares := by
    intro m hm
    refine List.mem_append.mpr (.inl ?_)
    rw [hfull]
    exact List.mem_range.mpr hm
  have hne : ¬ st.minterms = [] := by
    intro h
    have h0 : (0 : Nat) ∈ st.minterms := by
      rw [hfull]
      exact List.mem_range.mpr hpow
    rw [h] at h0
    exact absurd h0 (List.not_mem_nil 0)
  rcases findPrimeImplicants_inv st.numVariables st.minterms st.dontCares hval with
    ⟨hinv, _⟩
  have halldash : ∃ t ∈ findPrimeImplicants st.numVariables st.minterms st.dontCares,
      t.rep = List.replicate st.numVariables '-' := by
    unfold findPrimeImplicants
    refine qmLoop_alldash st.numVariables (st.numVariables + 2) 0 []
      (initialTerms st.numVariables st.minterms st.dontCares) (by omega) (by omega) ?_
    intro rep hlen hwf hdash
    rcases exists_toBin_of_nodash st.numVariables rep hlen hwf hdash with ⟨m, hmlt, hbin⟩
    refine ⟨⟨{m}, toBin st.numVariables m⟩, ?_, hbin⟩
    unfold initialTerms
    exact List.mem_map.mpr ⟨m, (mem_sortDedup m _).mpr (hfullmem m hmlt), rfl⟩
  rcases halldash with ⟨ts, hts, hrep⟩
  rcases hinv ts hts with ⟨_, _, hsem, _⟩
  have honF_iff : ∀ m, m ∈ st.minterms.toFinset ↔ m < 2 ^ st.numVariables := by
    intro m
    rw [List.mem_toFinset, hfull, List.mem_range]
  have hts_iff : ∀ m, m ∈ ts.minterms ↔ m < 2 ^ st.numVariables := by
    intro m
    rw [hsem m, hrep]
    constructor
    · intro h
      have := semL_lt _ m h
      simpa using this
    · exact mem_semL_replicate st.numVariables m
  have htracked : ts.minterms = st.minterms.toFinset := by
    ext m
    rw [hts_iff m, honF_iff m]
  have hcovts : ts.minterms ∩ st.minterms.toFinset = st.minterms.toFinset := by
    rw [htracked, Finset.inter_self]
  have honF_ne : st.minterms.toFinset ≠ ∅ := by
    intro h
    have h0 : (0 : Nat) ∈ st.minterms.toFinset := (honF_iff 0).mpr hpow
    rw [h] at h0
    exact absurd h0 (Finset.not_mem_empty 0)
  have hEmem : (ts, st.minterms.toFinset) ∈ coverageTable st.minterms.toFinset
      (findPrimeImplicants st.numVariables st.minterms st.dontCares) := by
    have hme := coverageTable_intro st.minterms.toFinset
      (findPrimeImplicants st.numVariables st.minterms st.dontCares) ts hts
      (by rw [hcovts]; exact honF_ne)
    rw [hcovts] at hme
    exact hme
  have hany : ((findEssential (coverageTable st.minterms.toFinset
        (findPrimeImplicants st.numVariables st.minterms st.dontCares)) st.minterms).1 ++
      solveCoveringProblem (coverageTable st.minterms.toFinset
          (findPrimeImplicants st.numVariables st.minterms st.dontCares))
        (st.minterms.toFinset \ (findEssential (coverageTable st.minterms.toFinset
          (findPrimeImplicants st.numVariables st.minterms st.dontCares)) st.minterms).2)).any
      (fun pi => toExpressionR (engineVariables st.numVariables) pi.rep == "1") = true := by
    rw [List.any_eq_true]
    by_cases hessnil : (findEssential (coverageTable st.minterms.toFinset
        (findPrimeImplicants st.numVariables st.minterms st.dontCares)) st.minterms).1 = []
    · have hess2 : (findEssential (coverageTable st.minterms.toFinset
          (findPrimeImplicants st.numVariables st.minterms st.dontCares))
          st.minterms).2 = ∅ := by
        rw [Finset.eq_empty_iff_forall_not_mem]
        intro m hm
        rcases (findEssential_spec (coverageTable st.minterms.toFinset
          (findPrimeImplicants st.numVariables st.minterms st.dontCares))
          st.minterms).1 m hm with ⟨p, hp, _⟩
        rw [hessnil] at hp
        exact absurd hp (List.not_mem_nil p)
      have haddm : ∃ p ∈ solveCoveringProblem (coverageTable st.minterms.toFinset
          (findPrimeImplicants st.numVariables st.minterms st.dontCares))
          (st.minterms.toFinset \ (findEssential (coverageTable st.minterms.toFinset
            (findPrimeImplicants st.numVariables st.minterms st.dontCares))
            st.minterms).2),
          ∃ qc ∈ coverageTable st.minterms.toFinset
            (findPrimeImplicants st.numVariables st.minterms st.dontCares),
            p = qc.1 ∧ st.minterms.toFinset ⊆ qc.2 := by
        have hsd : st.minterms.toFinset \ (findEssential (coverageTable st.minterms.toFinset
            (findPrimeImplicants st.numVariables st.minterms st.dontCares))
            st.minterms).2 = st.minterms.toFinset := by
          rw [hess2, Finset.sdiff_empty]
        rw [hsd]
        exact solveCovering_full_pick _ _ honF_ne (ts, st.minterms.toFinset) hEmem rfl
      rcases haddm with ⟨p, hpadd, qc, hqc, hpeq, hqsub⟩
      have hpsub : st.minterms.toFinset ⊆ p.minterms ∧
          p ∈ findPrimeImplicants st.numVariables st.minterms st.dontCares := by
        rcases coverageTable_elim st.minterms.toFinset
          (findPrimeImplicants st.numVariables st.minterms st.dontCares) qc hqc with
          ⟨hqpis, hqcov, _⟩
        constructor
        · intro x hx
          have hxq : x ∈ qc.2 := hqsub hx
          rw [hqcov] at hxq
          rw [hpeq]
          exact (Finset.mem_inter.mp hxq).1
        · rw [hpeq]
          exact hqpis
      rcases hinv p hpsub.2 with ⟨hplen, hpwf, hpsem, _⟩
      have hpsemfull : ∀ m, m < 2 ^ st.numVariables → m ∈ semL p.rep := by
        intro m hm
        exact (hpsem m).mp (hpsub.1 ((honF_iff m).mpr hm))
      have hprep : p.rep = List.replicate st.numVariables '-' :=
        sem_full_imp_alldash st.numVariables p.rep hplen hpwf hpsemfull
      refine ⟨p, List.mem_append.mpr (.inr hpadd), ?_⟩
      rw [hprep, toExpressionR_alldash]
      decide
    · rcases List.exists_mem_of_ne_nil _ hessnil with ⟨p0, hp0⟩
      rcases (findEssential_spec (coverageTable st.minterms.toFinset
        (findPrimeImplicants st.numVariables st.minterms st.dontCares))
        st.minterms).2 p0 hp0 with ⟨m', hm', cov', hfilter⟩
      have hm'E : m' ∈ ((ts, st.minterms.toFinset) : Term × Finset Nat).2 :=
        List.mem_toFinset.mpr hm'
      have hEfil : ((ts, st.minterms.toFinset) : Term × Finset Nat) ∈
          (coverageTable st.minterms.toFinset
            (findPrimeImplicants st.numVariables st.minterms st.dontCares)).filter
            (fun pc => decide (m' ∈ pc.2)) :=
        List.mem_filter.mpr ⟨hEmem, by simpa using hm'E⟩
      rw [hfilter] at hEfil
      rcases List.mem_cons.mp hEfil with hEeq | hbad
      · have hp0ts : ts = p0 := congrArg Prod.fst hEeq
        refine ⟨p0, List.mem_append.mpr (.inl hp0), ?_⟩
        rw [← hp0ts, hrep, toExpressionR_alldash]
        decide
      · exact absurd hbad (List.not_mem_nil _)
  have hanysel : (qmMinimize st).selected.any
      (fun pi => toExpressionR (engineVariables st.numVariables) pi.rep == "1") = true := by
    rw [qmMinimize_selected st hne]
    exact hany
  rcases qmMinimize_cases st hne with ⟨_, hc, hex⟩ | ⟨ha, _⟩
  · exact ⟨hex, hc⟩
  · rw [hanysel] at ha
    exact absurd ha (by decide)

/-- C7 (amended): QuineMcCluskey.minimize's reported cost is NOT the sum of
literal counts over the selected cubes.  For empty onSet the result is
expression "0" with cost 0; otherwise the cost equals the NUMBER of selected
prime implicants, except that when some selected cube renders as the
tautology "1" the early-return branch reports cost 1; in particular for
onSet = all 2^n minterms the result is expression "1" with cost 1, not the
claimed literal cost 0. -/
theorem qm_minimize_cost_structure (st : QMState) :
    (st.minterms = [] → qmMinimize st = ⟨"0", [], [], [], 0⟩) ∧
    ((qmMinimize st).cost =
      if (qmMinimize st).selected.any
          (fun pi => toExpressionR (engineVariables st.numVariables) pi.rep == "1") = true
        then 1 else (qmMinimize st).selected.length) ∧
    (st.minterms = List.range (2 ^ st.numVariables) →
      (∀ m ∈ st.dontCares, m < 2 ^ st.numVariables) →
      (qmMinimize st).simplifiedExpression = "1" ∧ (qmMinimize st).cost = 1) :=
  ⟨fun h => qmMinimize_empty st h, qmMinimize_cost_shape st,
    fun h1 h2 => qmMinimize_full_onset st h1 h2⟩

/-- Witness for the C7 theorem: the spec's own full-onset example n=2,
onSet={0,1,2,3} yields expression "1" with cost 1 (not 0). -/
theorem qm_minimize_cost_structure_witness :
    (qmMinimize ⟨2, [0, 1, 2, 3], []⟩).simplifiedExpression = "1" ∧
    (qmMinimize ⟨2, [0, 1, 2, 3], []⟩).cost = 1 :=
  (qm_minimize_cost_structure ⟨2, [0, 1, 2, 3], []⟩).2.2 (by decide)
    (fun m hm => absurd hm (List.not_mem_nil m))
